import Mathlib

/-!
Verification of the OCR preprocessing / scoring / language-detection /
layout-extraction core of `backend/ocr/processor.py`.

The Python functions are shallowly embedded as Lean definitions.  External
collaborators (OpenCV primitives, the tesseract engine, the Gemini oracle,
the langdetect library, the Unicode NFC normalizer, the filesystem) are
modelled as explicit environment records whose fields return `Except`
values: `.error` models a raised exception, and the Python `try/except`
blocks become explicit `match`es on those values.  Machine text is
`String`/`List Char`; all numeric scores are `ℚ` (the Python code uses
floats only on small exactly-representable combinations of the measured
quantities, so rational arithmetic matches the source formulas).
-/

set_option maxHeartbeats 2000000

/-- Dropping a prefix does not lengthen a list. -/
theorem dropWhile_length_le (p : Char → Bool) (l : List Char) :
    (l.dropWhile p).length ≤ l.length := by
  induction l with
  | nil => simp
  | cons c rest ih =>
    simp only [List.dropWhile]
    split
    · exact Nat.le_trans ih (Nat.le_succ _)
    · simp

/-- Python's whitespace class: the exact set of characters for which
`str.isspace()` holds and which `\s` matches in Python 3 `re` on `str`
(used by `strip()`, `re.sub(r'\s{2,}', ' ', ...)` and `re.sub(r'\s','',...)`
in `processor.py`). -/
def pyIsSpace (c : Char) : Bool :=
  (9 ≤ c.toNat && c.toNat ≤ 13) || c.toNat == 32 ||
  (28 ≤ c.toNat && c.toNat ≤ 31) || c.toNat == 0x85 || c.toNat == 0xA0 ||
  c.toNat == 0x1680 || (0x2000 ≤ c.toNat && c.toNat ≤ 0x200A) ||
  c.toNat == 0x2028 || c.toNat == 0x2029 || c.toNat == 0x202F ||
  c.toNat == 0x205F || c.toNat == 0x3000

/-- `str.strip()` from the right: drop trailing whitespace. -/
def stripEnd (l : List Char) : List Char :=
  (l.reverse.dropWhile pyIsSpace).reverse

/-- Python `str.strip()` on a character list. -/
def pyStrip (l : List Char) : List Char :=
  stripEnd (l.dropWhile pyIsSpace)

/-- `re.sub(r'\r\n', '\n', text)` (line 819 of `processor.py`):
left-to-right replacement of CRLF pairs by LF. -/
def replaceCrlf : List Char → List Char
  | [] => []
  | [c] => [c]
  | c :: d :: rest =>
    if c = '\r' ∧ d = '\n' then '\n' :: replaceCrlf rest
    else c :: replaceCrlf (d :: rest)

/-- `re.sub(r'\s{2,}', ' ', text)` (line 823): every maximal run of two or
more whitespace characters becomes a single ASCII space; isolated
whitespace characters are kept. -/
def collapseWs : List Char → List Char
  | [] => []
  | [c] => [c]
  | c :: d :: rest =>
    if pyIsSpace c && pyIsSpace d then
      ' ' :: collapseWs (rest.dropWhile pyIsSpace)
    else
      c :: collapseWs (d :: rest)
  termination_by l => l.length
  decreasing_by
    · simp only [List.length_cons]
      have := dropWhile_length_le pyIsSpace rest
      omega
    · simp [List.length_cons]

theorem replaceCrlf_nil : replaceCrlf [] = [] := by rw [replaceCrlf.eq_def]

theorem replaceCrlf_one (c : Char) : replaceCrlf [c] = [c] := by rw [replaceCrlf.eq_def]

theorem replaceCrlf_cons2 (c d : Char) (rest : List Char) :
    replaceCrlf (c :: d :: rest) =
      if c = '\r' ∧ d = '\n' then '\n' :: replaceCrlf rest
      else c :: replaceCrlf (d :: rest) := by
  rw [replaceCrlf.eq_def]

set_option maxHeartbeats 2000000 in
theorem collapseWs_nil : collapseWs [] = [] := by rw [collapseWs.eq_def]

theorem collapseWs_one (c : Char) : collapseWs [c] = [c] := by rw [collapseWs.eq_def]

theorem collapseWs_cons2 (c d : Char) (rest : List Char) :
    collapseWs (c :: d :: rest) =
      if pyIsSpace c && pyIsSpace d then ' ' :: collapseWs (rest.dropWhile pyIsSpace)
      else c :: collapseWs (d :: rest) := by
  rw [collapseWs.eq_def]

/-- The `replacements` table of `clean_ocr_text` (lines 825-850), with the
exact source codepoints.  The last seven entries map compatibility jamo to
themselves (identical codepoints in the source), i.e. they are identities. -/
def replacementTable : List (Char × List Char) :=
  [ ('，', [',']), ('．', ['.']), ('：', [':']),
    ('；', [';']), ('！', ['!']), ('？', ['?']),
    ('‘', ['\'']), ('’', ['\'']), ('“', ['"']),
    ('”', ['"']), ('–', ['-']), ('—', ['-']),
    (' ', [' ']), ('…', ['.', '.', '.']), ('․', ['.']),
    ('·', ['•']), ('˜', ['~']),
    ('ㄱ', ['ㄱ']), ('ㄴ', ['ㄴ']), ('ㄷ', ['ㄷ']),
    ('ㅏ', ['ㅏ']), ('ㅓ', ['ㅓ']), ('ㅗ', ['ㅗ']),
    ('ㅜ', ['ㅜ']) ]

/-- `text.replace(old, new)` for a single-character `old`: every occurrence
of `k` becomes `v`.  (The `if old in text` guard in the source only skips
the call when it would be the identity, so both are extensionally equal.) -/
def replaceChar (k : Char) (v : List Char) (l : List Char) : List Char :=
  (l.map (fun c => if c = k then v else [c])).flatten

/-- The sequential application of the whole `replacements` table
(lines 852-854). -/
def applyReplacements (l : List Char) : List Char :=
  replacementTable.foldl (fun acc p => replaceChar p.1 p.2 acc) l

/-- Python `text.split('\n')` on character lists. -/
def splitLines : List Char → List (List Char)
  | [] => [[]]
  | c :: rest =>
    if c = '\n' then [] :: splitLines rest
    else
      match splitLines rest with
      | [] => [[c]]
      | l :: ls => (c :: l) :: ls

/-- Lines 856-862 of `clean_ocr_text`: split on `'\n'`, strip each line,
drop the now-empty lines, and re-join with `'\n'`. -/
def processLines (l : List Char) : List Char :=
  List.intercalate ['\n'] (((splitLines l).map pyStrip).filter (· ≠ []))

/-- The pure post-normalization part of `clean_ocr_text` (everything after
the `unicodedata.normalize('NFC', ...)` call): CRLF folding, strip,
whitespace-run collapse, the replacement table, and line cleanup, in
source order (lines 819-862). -/
def cleanPost (l : List Char) : List Char :=
  processLines (applyReplacements (collapseWs (pyStrip (replaceCrlf l))))

/-- `cleanPost` on `String`. -/
def cleanPostStr (s : String) : String :=
  ⟨cleanPost s.data⟩

/-- `clean_ocr_text` (lines 812-867).  The Unicode NFC normalizer called at
line 817 is a library routine external to the repository and is passed in
as the abstract function `nfc`.  The trailing `try/except` is dead for the
pure string operations and is not modelled. -/
def cleanOcrText (nfc : String → String) (text : String) : String :=
  if text = "" then "" else cleanPostStr (nfc text)

/-! ### Invariants of the normalized text, used to prove idempotency -/

/-- No two adjacent whitespace characters. -/
def NoAdj (l : List Char) : Prop :=
  l.Chain' (fun a b => ¬(pyIsSpace a = true ∧ pyIsSpace b = true))

/-- The first character, when present, is not whitespace. -/
def HeadOk (l : List Char) : Prop := ∀ c ∈ l.head?, pyIsSpace c = false

/-- The last character, when present, is not whitespace. -/
def LastOk (l : List Char) : Prop := ∀ c ∈ l.getLast?, pyIsSpace c = false

/-- Every table entry either is an identity replacement or its key does not
occur in `l` (so `applyReplacements` fixes `l`). -/
def KeyClean (l : List Char) : Prop :=
  ∀ p ∈ replacementTable, p.2 = [p.1] ∨ p.1 ∉ l

theorem noAdj_nil : NoAdj [] := List.chain'_nil

theorem noAdj_tail {c : Char} {l : List Char} (h : NoAdj (c :: l)) : NoAdj l :=
  (List.chain'_cons'.mp h).2

theorem noAdj_cons_of_head {c : Char} {l : List Char} (hl : NoAdj l)
    (hc : ∀ d ∈ l.head?, ¬(pyIsSpace c = true ∧ pyIsSpace d = true)) :
    NoAdj (c :: l) :=
  List.chain'_cons'.mpr ⟨hc, hl⟩

/-- `dropWhile` leaves a list whose head fails the predicate. -/
theorem head_dropWhile_false (p : Char → Bool) :
    ∀ l : List Char, ∀ c ∈ (l.dropWhile p).head?, p c = false := by
  intro l
  induction l with
  | nil => simp
  | cons a rest ih =>
    intro c hc
    by_cases hpa : p a
    · rw [List.dropWhile_cons_of_pos hpa] at hc
      exact ih c hc
    · rw [List.dropWhile_cons_of_neg hpa] at hc
      simp only [List.head?_cons, Option.mem_def, Option.some.injEq] at hc
      subst hc
      exact Bool.eq_false_iff.mpr hpa

/-- When `dropWhile` returns something, it keeps the last element. -/
theorem getLast?_dropWhile (p : Char → Bool) :
    ∀ l : List Char, l.dropWhile p ≠ [] → (l.dropWhile p).getLast? = l.getLast? := by
  intro l
  induction l with
  | nil => simp
  | cons a rest ih =>
    intro hne
    by_cases hpa : p a
    · rw [List.dropWhile_cons_of_pos hpa] at hne ⊢
      rcases rest with _ | ⟨b, rest'⟩
      · simp at hne
      · rw [ih hne, List.getLast?_cons_cons]
    · rw [List.dropWhile_cons_of_neg hpa]

theorem headOk_dropWhile (l : List Char) : HeadOk (l.dropWhile pyIsSpace) :=
  fun c hc => head_dropWhile_false pyIsSpace l c hc

theorem headOk_stripEnd {l : List Char} (h : HeadOk l) : HeadOk (stripEnd l) := by
  intro c hc
  unfold stripEnd at hc
  rw [List.head?_reverse] at hc
  have hne : l.reverse.dropWhile pyIsSpace ≠ [] := by
    intro hnil
    rw [hnil] at hc
    simp at hc
  rw [getLast?_dropWhile pyIsSpace l.reverse hne, List.getLast?_reverse] at hc
  exact h c hc

theorem lastOk_stripEnd (l : List Char) : LastOk (stripEnd l) := by
  intro c hc
  unfold stripEnd at hc
  rw [List.getLast?_reverse] at hc
  exact head_dropWhile_false pyIsSpace l.reverse c hc

theorem headOk_pyStrip (l : List Char) : HeadOk (pyStrip l) :=
  headOk_stripEnd (headOk_dropWhile l)

theorem lastOk_pyStrip (l : List Char) : LastOk (pyStrip l) :=
  lastOk_stripEnd _

/-- A list with non-whitespace head is untouched by `dropWhile pyIsSpace`. -/
theorem dropWhile_of_headOk : ∀ {l : List Char}, HeadOk l → l.dropWhile pyIsSpace = l := by
  intro l h
  cases l with
  | nil => rfl
  | cons c rest =>
    have : pyIsSpace c = false := h c (by simp)
    simp [List.dropWhile, this]

theorem stripEnd_of_lastOk {l : List Char} (h : LastOk l) : stripEnd l = l := by
  unfold stripEnd
  have : HeadOk l.reverse := by
    intro c hc
    rw [List.head?_reverse] at hc
    exact h c hc
  rw [dropWhile_of_headOk this, List.reverse_reverse]

/-- `pyStrip` fixes strings with clean edges. -/
theorem pyStrip_of_ok {l : List Char} (h1 : HeadOk l) (h2 : LastOk l) :
    pyStrip l = l := by
  unfold pyStrip
  rw [dropWhile_of_headOk h1, stripEnd_of_lastOk h2]

/-- `replaceCrlf` fixes strings with no adjacent whitespace (a CRLF pair is
two adjacent whitespace characters). -/
theorem replaceCrlf_of_noAdj : ∀ {l : List Char}, NoAdj l → replaceCrlf l = l := by
  intro l
  induction l using replaceCrlf.induct with
  | case1 => intro _; exact replaceCrlf_nil
  | case2 c => intro _; exact replaceCrlf_one c
  | case3 c d rest hcd ih =>
    intro h
    exfalso
    rcases hcd with ⟨hc, hd⟩
    subst hc; subst hd
    have := (List.chain'_cons.mp h).1
    exact this ⟨by decide, by decide⟩
  | case4 c d rest hcd ih =>
    intro h
    rw [replaceCrlf_cons2]
    rw [if_neg hcd, ih (noAdj_tail h)]

/-- `collapseWs` fixes strings with no adjacent whitespace. -/
theorem collapseWs_of_noAdj : ∀ {l : List Char}, NoAdj l → collapseWs l = l := by
  intro l
  induction l using collapseWs.induct with
  | case1 => intro _; exact collapseWs_nil
  | case2 c => intro _; exact collapseWs_one c
  | case3 c d rest hcd ih =>
    intro h
    exfalso
    have := (List.chain'_cons.mp h).1
    simp only [Bool.and_eq_true] at hcd
    exact this ⟨hcd.1, hcd.2⟩
  | case4 c d rest hcd ih =>
    intro h
    rw [collapseWs_cons2, if_neg hcd, ih (noAdj_tail h)]

theorem collapseWs_ne_nil : ∀ {l : List Char}, l ≠ [] → collapseWs l ≠ [] := by
  intro l
  induction l using collapseWs.induct with
  | case1 => intro h; exact absurd rfl h
  | case2 c => intro _; rw [collapseWs_one]; simp
  | case3 c d rest hcd ih =>
    intro _
    rw [collapseWs_cons2, if_pos hcd]
    simp
  | case4 c d rest hcd ih =>
    intro _
    rw [collapseWs_cons2, if_neg hcd]
    simp

/-- `collapseWs` keeps a non-whitespace head. -/
theorem headOk_collapseWs : ∀ {l : List Char}, HeadOk l → HeadOk (collapseWs l) := by
  intro l
  induction l using collapseWs.induct with
  | case1 => intro h; rw [collapseWs_nil]; exact h
  | case2 c => intro h; rw [collapseWs_one]; exact h
  | case3 c d rest hcd ih =>
    intro h
    exfalso
    simp only [Bool.and_eq_true] at hcd
    have := h c (by simp)
    rw [hcd.1] at this
    exact Bool.true_eq_false.mp this
  | case4 c d rest hcd ih =>
    intro h
    rw [collapseWs_cons2, if_neg hcd]
    intro e he
    simp only [List.head?_cons, Option.mem_def, Option.some.injEq] at he
    subst he
    exact h _ (by simp)

theorem lastOk_collapseWs : ∀ {l : List Char}, LastOk l → LastOk (collapseWs l) := by
  intro l
  induction l using collapseWs.induct with
  | case1 => intro h; rw [collapseWs_nil]; exact h
  | case2 c => intro h; rw [collapseWs_one]; exact h
  | case3 c d rest hcd ih =>
    intro h
    rw [collapseWs_cons2, if_pos hcd]
    simp only [Bool.and_eq_true] at hcd
    -- Under `LastOk`, the whitespace run cannot reach the end of the list:
    -- the remainder after `dropWhile` is nonempty and keeps the last element.
    have hrest : rest ≠ [] := by
      intro hnil
      subst hnil
      have := h d (by simp)
      rw [hcd.2] at this
      exact Bool.true_eq_false.mp this
    have hlast_rest : rest.getLast? = (c :: d :: rest).getLast? := by
      rw [List.getLast?_cons_cons]
      cases rest with
      | nil => exact absurd rfl hrest
      | cons x xs => rw [List.getLast?_cons_cons]
    have hdrop_ne : rest.dropWhile pyIsSpace ≠ [] := by
      intro hnil
      -- if the drop exhausts `rest`, the last char of `rest` is whitespace
      have hall := List.dropWhile_eq_nil_iff.mp hnil
      obtain ⟨y, hy⟩ : ∃ y, rest.getLast? = some y := by
        cases rest with
        | nil => exact absurd rfl hrest
        | cons a as => exact ⟨_, List.getLast?_eq_getLast_of_ne_nil (by simp)⟩
      have hyws := hall y (List.mem_of_mem_getLast? hy)
      have := h y (by rw [← hlast_rest]; exact hy)
      rw [hyws] at this
      exact Bool.true_eq_false.mp this
    have hkeep := getLast?_dropWhile pyIsSpace rest hdrop_ne
    have hLrun : LastOk (rest.dropWhile pyIsSpace) := by
      intro y hy
      rw [hkeep] at hy
      exact h y (by rw [← hlast_rest]; exact hy)
    have hcoll := ih hLrun
    have hne := collapseWs_ne_nil hdrop_ne
    intro y hy
    cases hcw : collapseWs (rest.dropWhile pyIsSpace) with
    | nil => exact absurd hcw hne
    | cons z zs =>
      rw [hcw] at hy
      rw [List.getLast?_cons_cons] at hy
      exact hcoll y (by rw [hcw]; simpa using hy)
  | case4 c d rest hcd ih =>
    intro h
    rw [collapseWs_cons2, if_neg hcd]
    have htail : LastOk (d :: rest) := by
      intro y hy
      exact h y (by rw [List.getLast?_cons_cons]; exact hy)
    have hcoll := ih htail
    have hne : collapseWs (d :: rest) ≠ [] := collapseWs_ne_nil (by simp)
    intro y hy
    cases hcw : collapseWs (d :: rest) with
    | nil => exact absurd hcw hne
    | cons z zs =>
      rw [hcw] at hy
      rw [List.getLast?_cons_cons] at hy
      exact hcoll y (by rw [hcw]; simpa using hy)

/-- The output of `collapseWs` has no adjacent whitespace. -/
theorem noAdj_collapseWs : ∀ (l : List Char), NoAdj (collapseWs l) := by
  intro l
  induction l using collapseWs.induct with
  | case1 => rw [collapseWs_nil]; exact noAdj_nil
  | case2 c => rw [collapseWs_one]; exact List.chain'_singleton c
  | case3 c d rest hcd ih =>
    rw [collapseWs_cons2, if_pos hcd]
    refine noAdj_cons_of_head ih ?_
    intro e he hcontra
    have hhead : HeadOk (collapseWs (rest.dropWhile pyIsSpace)) :=
      headOk_collapseWs (headOk_dropWhile rest)
    have := hhead e he
    rw [hcontra.2] at this
    exact Bool.true_eq_false.mp this
  | case4 c d rest hcd ih =>
    rw [collapseWs_cons2, if_neg hcd]
    refine noAdj_cons_of_head ih ?_
    intro e he hcontra
    simp only [Bool.and_eq_true, not_and] at hcd
    by_cases hc : pyIsSpace c = true
    · have hd : pyIsSpace d = false := Bool.eq_false_iff.mpr (hcd hc)
      have hhead : HeadOk (collapseWs (d :: rest)) := by
        apply headOk_collapseWs
        intro y hy
        simp only [List.head?_cons, Option.mem_def, Option.some.injEq] at hy
        subst hy
        exact hd
      have := hhead e he
      rw [hcontra.2] at this
      exact Bool.true_eq_false.mp this
    · exact hc hcontra.1

/-! ### The replacement table -/

/-- The shape every table entry has: a whitespace key is replaced by a
single ASCII space, a non-whitespace key by a nonempty all-non-whitespace
string.  This is what makes the table preserve the whitespace structure. -/
def EntryOk (k : Char) (v : List Char) : Prop :=
  (pyIsSpace k = true → v = [' ']) ∧
  (pyIsSpace k = false → v ≠ [] ∧ ∀ e ∈ v, pyIsSpace e = false)

theorem replaceChar_nil (k : Char) (v : List Char) : replaceChar k v [] = [] := rfl

theorem replaceChar_cons (k : Char) (v : List Char) (c : Char) (l : List Char) :
    replaceChar k v (c :: l) = (if c = k then v else [c]) ++ replaceChar k v l := by
  simp [replaceChar]

theorem mem_replaceChar {k : Char} {v l : List Char} {x : Char}
    (h : x ∈ replaceChar k v l) : x ∈ v ∨ x ∈ l := by
  induction l with
  | nil => simp [replaceChar_nil] at h
  | cons c rest ih =>
    rw [replaceChar_cons] at h
    rcases List.mem_append.mp h with h1 | h2
    · split at h1
      · exact Or.inl h1
      · simp only [List.mem_singleton] at h1
        exact Or.inr (h1 ▸ List.mem_cons_self c rest)
    · rcases ih h2 with h3 | h4
      · exact Or.inl h3
      · exact Or.inr (List.mem_cons_of_mem c h4)

theorem replaceChar_of_notMem {k : Char} {v l : List Char} (h : k ∉ l) :
    replaceChar k v l = l := by
  induction l with
  | nil => rfl
  | cons c rest ih =>
    rw [replaceChar_cons]
    rw [if_neg (fun hc => h (by rw [← hc]; exact List.mem_cons_self c rest))]
    rw [ih (fun hm => h (List.mem_cons_of_mem c hm))]
    rfl

theorem replaceChar_id (k : Char) (l : List Char) : replaceChar k [k] l = l := by
  induction l with
  | nil => rfl
  | cons c rest ih =>
    rw [replaceChar_cons, ih]
    by_cases hc : c = k
    · subst hc; simp
    · rw [if_neg hc]; rfl

theorem notMem_replaceChar {k k' : Char} {v l : List Char}
    (hl : k ∉ l) (hv : k ∉ v) : k ∉ replaceChar k' v l := by
  intro hmem
  rcases mem_replaceChar hmem with h | h
  · exact hv h
  · exact hl h

theorem notMem_replaceChar_self {k : Char} {v l : List Char} (hv : k ∉ v) :
    k ∉ replaceChar k v l := by
  induction l with
  | nil => simp [replaceChar_nil]
  | cons c rest ih =>
    rw [replaceChar_cons]
    intro hmem
    rcases List.mem_append.mp hmem with h1 | h2
    · split at h1
      · exact hv h1
      · next hc =>
        simp only [List.mem_singleton] at h1
        exact hc h1.symm
    · exact ih h2

theorem replaceChar_ne_nil {k : Char} {v : List Char} (hek : EntryOk k v)
    {l : List Char} (hl : l ≠ []) : replaceChar k v l ≠ [] := by
  cases l with
  | nil => exact absurd rfl hl
  | cons c rest =>
    rw [replaceChar_cons]
    intro hnil
    rcases List.append_eq_nil.mp hnil with ⟨h1, _⟩
    split at h1
    · cases hws : pyIsSpace k with
      | true => rw [hek.1 hws] at h1; simp at h1
      | false => exact (hek.2 hws).1 h1
    · simp at h1

/-- Every character produced by a table entry has the same whitespace class
as the character it replaced. -/
theorem class_replaceChar {k : Char} {v : List Char} (hek : EntryOk k v)
    (c e : Char) (he : e ∈ (if c = k then v else [c])) :
    pyIsSpace e = pyIsSpace c := by
  split at he
  · next hc =>
    subst hc
    cases hws : pyIsSpace c with
    | true =>
      rw [hek.1 hws] at he
      simp only [List.mem_singleton] at he
      subst he; rfl
    | false =>
      exact (hek.2 hws).2 e he
  · simp only [List.mem_singleton] at he
    subst he; rfl

theorem chunk_ne_nil {k : Char} {v : List Char} (hek : EntryOk k v)
    (c : Char) : (if c = k then v else [c]) ≠ [] := by
  split
  · cases hws : pyIsSpace k with
    | true => rw [hek.1 hws]; simp
    | false => exact (hek.2 hws).1
  · simp

theorem noAdj_of_all_nonws : ∀ {x : List Char}, (∀ e ∈ x, pyIsSpace e = false) → NoAdj x := by
  intro x
  induction x with
  | nil => intro _; exact noAdj_nil
  | cons a t ih =>
    intro h
    refine noAdj_cons_of_head (ih fun e he => h e (List.mem_cons_of_mem a he)) ?_
    intro d _ hcontra
    have := h a (List.mem_cons_self a t)
    rw [hcontra.1] at this
    exact Bool.true_eq_false.mp this

theorem noAdj_chunk {k : Char} {v : List Char} (hek : EntryOk k v) (c : Char) :
    NoAdj (if c = k then v else [c]) := by
  split
  · cases hws : pyIsSpace k with
    | true => rw [hek.1 hws]; exact List.chain'_singleton _
    | false => exact noAdj_of_all_nonws (hek.2 hws).2
  · exact List.chain'_singleton _

/-- The head of a `replaceChar` image has the same whitespace class as the
head of the original. -/
theorem head_class_replaceChar {k : Char} {v : List Char} (hek : EntryOk k v)
    (l : List Char) (y : Char) (hy : y ∈ (replaceChar k v l).head?) :
    ∃ d ∈ l.head?, pyIsSpace y = pyIsSpace d := by
  cases l with
  | nil => simp [replaceChar_nil] at hy
  | cons c rest =>
    rw [replaceChar_cons, List.head?_append] at hy
    refine ⟨c, by simp, ?_⟩
    have hne := chunk_ne_nil hek c
    cases hch : (if c = k then v else [c]) with
    | nil => exact absurd hch hne
    | cons z zs =>
      rw [hch] at hy
      simp only [List.head?_cons, Option.or_some, Option.mem_def, Option.some.injEq] at hy
      subst hy
      exact class_replaceChar hek c _ (by rw [hch]; exact List.mem_cons_self z zs)

theorem noAdj_replaceChar {k : Char} {v : List Char} (hek : EntryOk k v) :
    ∀ {l : List Char}, NoAdj l → NoAdj (replaceChar k v l) := by
  intro l
  induction l with
  | nil => intro _; exact noAdj_nil
  | cons c rest ih =>
    intro h
    rw [replaceChar_cons]
    rw [NoAdj, List.chain'_append]
    refine ⟨noAdj_chunk hek c, ih (noAdj_tail h), ?_⟩
    intro x hx y hy hcontra
    obtain ⟨d, hd, hcls⟩ := head_class_replaceChar hek rest y hy
    have hx_cls : pyIsSpace x = pyIsSpace c :=
      class_replaceChar hek c x (List.mem_of_mem_getLast? hx)
    have hedge := (List.chain'_cons'.mp h).1 d hd
    exact hedge ⟨hx_cls ▸ hcontra.1, hcls ▸ hcontra.2⟩

theorem headOk_replaceChar {k : Char} {v : List Char} (hek : EntryOk k v)
    {l : List Char} (h : HeadOk l) : HeadOk (replaceChar k v l) := by
  intro y hy
  obtain ⟨d, hd, hcls⟩ := head_class_replaceChar hek l y hy
  rw [hcls]
  exact h d hd

theorem lastOk_replaceChar {k : Char} {v : List Char} (hek : EntryOk k v) :
    ∀ {l : List Char}, LastOk l → LastOk (replaceChar k v l) := by
  intro l
  induction l with
  | nil => intro h; exact h
  | cons c rest ih =>
    intro h
    rw [replaceChar_cons]
    cases rest with
    | nil =>
      rw [replaceChar_nil, List.append_nil]
      intro y hy
      have : pyIsSpace y = pyIsSpace c :=
        class_replaceChar hek c y (List.mem_of_mem_getLast? hy)
      rw [this]
      exact h c (by simp)
    | cons b bs =>
      have hrest_ne : replaceChar k v (b :: bs) ≠ [] :=
        replaceChar_ne_nil hek (by simp)
      intro y hy
      rw [List.getLast?_append_of_ne_nil _ hrest_ne] at hy
      refine ih ?_ y hy
      intro z hz
      exact h z (by rw [List.getLast?_cons_cons]; exact hz)

instance (k : Char) (v : List Char) : Decidable (EntryOk k v) := by
  unfold EntryOk
  infer_instance

set_option maxHeartbeats 2000000 in
theorem tableEntryOk : ∀ p ∈ replacementTable, EntryOk p.1 p.2 := by decide

set_option maxHeartbeats 4000000 in
/-- No (non-identity) key of the table occurs in any value of the table. -/
theorem tableKeysFresh :
    ∀ p ∈ replacementTable, ∀ q ∈ replacementTable, p.2 = [p.1] ∨ p.1 ∉ q.2 := by
  decide

attribute [irreducible] replacementTable

/-- Structural-invariant preservation through the whole fold over any
table of well-shaped entries. -/
theorem fold_preserves (T : List (Char × List Char))
    (hT : ∀ p ∈ T, EntryOk p.1 p.2) :
    ∀ l : List Char, (NoAdj l → NoAdj (T.foldl (fun acc p => replaceChar p.1 p.2 acc) l)) ∧
      (HeadOk l → HeadOk (T.foldl (fun acc p => replaceChar p.1 p.2 acc) l)) ∧
      (LastOk l → LastOk (T.foldl (fun acc p => replaceChar p.1 p.2 acc) l)) := by
  induction T with
  | nil => intro l; exact ⟨id, id, id⟩
  | cons p T' ih =>
    intro l
    have hp : EntryOk p.1 p.2 := hT p (List.mem_cons_self p T')
    have hT' : ∀ q ∈ T', EntryOk q.1 q.2 := fun q hq => hT q (List.mem_cons_of_mem p hq)
    simp only [List.foldl_cons]
    refine ⟨?_, ?_, ?_⟩
    · intro h
      exact ((ih hT' (replaceChar p.1 p.2 l)).1) (noAdj_replaceChar hp h)
    · intro h
      exact ((ih hT' (replaceChar p.1 p.2 l)).2.1) (headOk_replaceChar hp h)
    · intro h
      exact ((ih hT' (replaceChar p.1 p.2 l)).2.2) (lastOk_replaceChar hp h)

theorem applyReplacements_eq_fold (l : List Char) :
    applyReplacements l =
      replacementTable.foldl (fun acc p => replaceChar p.1 p.2 acc) l := rfl

theorem noAdj_applyReplacements {l : List Char} (h : NoAdj l) :
    NoAdj (applyReplacements l) := by
  rw [applyReplacements_eq_fold]
  exact ((fold_preserves replacementTable tableEntryOk l).1) h

theorem headOk_applyReplacements {l : List Char} (h : HeadOk l) :
    HeadOk (applyReplacements l) := by
  rw [applyReplacements_eq_fold]
  exact ((fold_preserves replacementTable tableEntryOk l).2.1) h

theorem lastOk_applyReplacements {l : List Char} (h : LastOk l) :
    LastOk (applyReplacements l) := by
  rw [applyReplacements_eq_fold]
  exact ((fold_preserves replacementTable tableEntryOk l).2.2) h

/-- A key with a non-identity value never occurs in the fold's output,
provided no value of the table contains it. -/
theorem notMem_fold (k : Char) (T : List (Char × List Char))
    (hk : ∀ q ∈ T, k ∉ q.2) :
    ∀ l : List Char, k ∉ l → k ∉ T.foldl (fun acc p => replaceChar p.1 p.2 acc) l := by
  induction T with
  | nil => intro l h; exact h
  | cons p T' ih =>
    intro l h
    simp only [List.foldl_cons]
    refine ih (fun q hq => hk q (List.mem_cons_of_mem p hq)) _ ?_
    exact notMem_replaceChar h (hk p (List.mem_cons_self p T'))

/-- After the whole table has been applied, every non-identity key is gone. -/
theorem keyClean_fold (T : List (Char × List Char))
    (hfresh : ∀ p ∈ T, ∀ q ∈ T, p.2 = [p.1] ∨ p.1 ∉ q.2) :
    ∀ l : List Char, ∀ p ∈ T,
      p.2 = [p.1] ∨ p.1 ∉ T.foldl (fun acc q => replaceChar q.1 q.2 acc) l := by
  induction T with
  | nil => intro l p hp; simp at hp
  | cons p₀ T' ih =>
    intro l p hp
    simp only [List.foldl_cons]
    rcases List.mem_cons.mp hp with heq | hmem
    · subst heq
      rcases hfresh p (List.mem_cons_self p T') p (List.mem_cons_self p T') with hid | hnv
      · exact Or.inl hid
      · refine Or.inr ?_
        refine notMem_fold p.1 T' ?_ _ ?_
        · intro q hq
          rcases hfresh p (List.mem_cons_self p T') q (List.mem_cons_of_mem p hq) with hid | h
          · exact absurd hid (by intro hc; exact hnv (by rw [hc]; exact List.mem_singleton.mpr rfl))
          · exact h
        · exact notMem_replaceChar_self hnv
    · exact ih (fun a ha b hb =>
        hfresh a (List.mem_cons_of_mem p₀ ha) b (List.mem_cons_of_mem p₀ hb)) _ p hmem

theorem keyClean_applyReplacements (l : List Char) : KeyClean (applyReplacements l) := by
  intro p hp
  rw [applyReplacements_eq_fold]
  exact keyClean_fold replacementTable tableKeysFresh l p hp

/-- `applyReplacements` fixes any string in which every non-identity key is
absent. -/
theorem applyReplacements_of_keyClean : ∀ {l : List Char}, KeyClean l → applyReplacements l = l := by
  intro l h
  rw [applyReplacements_eq_fold]
  unfold KeyClean at h
  -- generalize over the table together with its `KeyClean` facts
  suffices hgen : ∀ (T : List (Char × List Char)) (l : List Char),
      (∀ p ∈ T, p.2 = [p.1] ∨ p.1 ∉ l) →
      T.foldl (fun acc p => replaceChar p.1 p.2 acc) l = l by
    exact hgen replacementTable l h
  intro T
  induction T with
  | nil => intro l _; rfl
  | cons p T' ih =>
    intro l hl
    simp only [List.foldl_cons]
    have hfix : replaceChar p.1 p.2 l = l := by
      rcases hl p (List.mem_cons_self p T') with hid | hnm
      · rw [hid]; exact replaceChar_id p.1 l
      · exact replaceChar_of_notMem hnm
    rw [hfix]
    exact ih l (fun q hq => hl q (List.mem_cons_of_mem p hq))

/-! ### Line splitting -/

theorem intercalate_nl_nil : List.intercalate ['\n'] ([] : List (List Char)) = [] := by
  simp [List.intercalate]

theorem intercalate_nl_one (a : List Char) : List.intercalate ['\n'] [a] = a := by
  simp [List.intercalate]

theorem intercalate_nl_cons2 (a b : List Char) (t : List (List Char)) :
    List.intercalate ['\n'] (a :: b :: t) = a ++ '\n' :: List.intercalate ['\n'] (b :: t) := by
  simp [List.intercalate, List.intersperse_cons_cons]

theorem splitLines_ne_nil : ∀ l : List Char, splitLines l ≠ [] := by
  intro l
  cases l with
  | nil => simp [splitLines]
  | cons c rest =>
    simp only [splitLines]
    split
    · simp
    · split <;> simp

/-- Re-joining the split lines with `'\n'` recovers the original string. -/
theorem intercalate_splitLines : ∀ l : List Char, List.intercalate ['\n'] (splitLines l) = l := by
  intro l
  induction l with
  | nil => simp [splitLines, intercalate_nl_one]
  | cons c rest ih =>
    simp only [splitLines]
    by_cases hc : c = '\n'
    · rw [if_pos hc]
      cases hsp : splitLines rest with
      | nil => exact absurd hsp (splitLines_ne_nil rest)
      | cons m ms =>
        rw [intercalate_nl_cons2, hc, List.nil_append]
        rw [← hsp, ih]
    · rw [if_neg hc]
      cases hsp : splitLines rest with
      | nil => exact absurd hsp (splitLines_ne_nil rest)
      | cons m ms =>
        cases ms with
        | nil =>
          rw [intercalate_nl_one]
          have : List.intercalate ['\n'] (splitLines rest) = rest := ih
          rw [hsp, intercalate_nl_one] at this
          rw [this]
        | cons x xs =>
          rw [intercalate_nl_cons2]
          have : List.intercalate ['\n'] (splitLines rest) = rest := ih
          rw [hsp, intercalate_nl_cons2] at this
          rw [List.cons_append, ← this]

/-- A newline-free string splits into a single line. -/
theorem splitLines_no_nl : ∀ {l : List Char}, '\n' ∉ l → splitLines l = [l] := by
  intro l
  induction l with
  | nil => intro _; rfl
  | cons c rest ih =>
    intro h
    have hc : ¬(c = '\n') := fun hc => h (hc ▸ List.mem_cons_self c rest)
    simp only [splitLines, if_neg hc]
    rw [ih (fun hm => h (List.mem_cons_of_mem c hm))]

/-- Splitting at the first newline. -/
theorem splitLines_append : ∀ {a : List Char} (b : List Char), '\n' ∉ a →
    splitLines (a ++ '\n' :: b) = a :: splitLines b := by
  intro a
  induction a with
  | nil =>
    intro b _
    simp [splitLines]
  | cons c t ih =>
    intro b h
    have hc : ¬(c = '\n') := fun hc => h (hc ▸ List.mem_cons_self c t)
    simp only [List.cons_append, splitLines, if_neg hc, List.append_eq]
    rw [ih b (fun hm => h (List.mem_cons_of_mem c hm))]

/-- In a string with clean edges and no adjacent whitespace, every line
produced by `splitLines` is nonempty and already stripped. -/
theorem goodLines : ∀ (n : Nat) (l : List Char), l.length ≤ n → l ≠ [] →
    NoAdj l → HeadOk l → LastOk l →
    ∀ m ∈ splitLines l, m ≠ [] ∧ pyStrip m = m := by
  intro n
  induction n with
  | zero =>
    intro l hlen hne _ _ _
    cases l with
    | nil => exact absurd rfl hne
    | cons c t => simp at hlen
  | succ n ihn =>
    intro l hlen hne hadj hhead hlast
    by_cases hnl : '\n' ∈ l
    · -- split at the first newline
      obtain ⟨a, b, hdecomp, hnot_a⟩ : ∃ a b, l = a ++ '\n' :: b ∧ '\n' ∉ a := by
        have hdec := List.takeWhile_append_dropWhile (fun x => decide (x ≠ '\n')) l
        have hna : '\n' ∉ l.takeWhile (fun x => decide (x ≠ '\n')) := by
          intro hm
          have := List.mem_takeWhile_imp hm
          simp at this
        cases hrr : l.dropWhile (fun x => decide (x ≠ '\n')) with
        | nil =>
          exfalso
          rw [hrr, List.append_nil] at hdec
          exact hna (by rw [hdec]; exact hnl)
        | cons c b =>
          have hc : c = '\n' := by
            have := head_dropWhile_false (fun x => decide (x ≠ '\n')) l c
              (by rw [hrr]; simp)
            simpa using this
          subst hc
          refine ⟨l.takeWhile (fun x => decide (x ≠ '\n')), b, ?_, hna⟩
          nth_rewrite 1 [← hdec]
          rw [hrr]
      subst hdecomp
      rw [NoAdj, List.chain'_append] at hadj
      obtain ⟨hadj_a, hadj_nb, hedge⟩ := hadj
      have hws_nl : pyIsSpace '\n' = true := by decide
      have ha_ne : a ≠ [] := by
        intro hanil
        subst hanil
        have := hhead '\n' (by simp)
        rw [hws_nl] at this
        exact Bool.true_eq_false.mp this
      have hhead_a : HeadOk a := by
        intro x hx
        refine hhead x ?_
        rw [List.head?_append]
        cases a with
        | nil => exact absurd rfl ha_ne
        | cons y ys =>
          simp only [List.head?_cons, Option.or_some]
          exact hx
      have hlast_a : LastOk a := by
        intro x hx
        have := hedge x hx '\n' (by simp)
        by_contra hcon
        exact this ⟨Bool.not_eq_false _ ▸ (by simpa using hcon), hws_nl⟩
      have hb_ne : b ≠ [] := by
        intro hbnil
        subst hbnil
        have hlast_l := hlast '\n' (by
          rw [@List.getLast?_append_of_ne_nil Char a ['\n'] (by simp)]
          simp)
        rw [hws_nl] at hlast_l
        exact Bool.true_eq_false.mp hlast_l
      have hhead_b : HeadOk b := by
        intro y hy
        have := (List.chain'_cons'.mp hadj_nb).1 y hy
        by_contra hcon
        exact this ⟨hws_nl, Bool.not_eq_false _ ▸ (by simpa using hcon)⟩
      have hadj_b : NoAdj b := (List.chain'_cons'.mp hadj_nb).2
      have hlast_b : LastOk b := by
        intro y hy
        refine hlast y ?_
        rw [@List.getLast?_append_of_ne_nil Char a ('\n' :: b) (by simp)]
        cases b with
        | nil => exact absurd rfl hb_ne
        | cons z zs => rw [List.getLast?_cons_cons]; exact hy
      have hlen_b : b.length ≤ n := by
        have h1 : (a ++ '\n' :: b).length = a.length + (b.length + 1) := by
          rw [List.length_append, List.length_cons]
        have h2 : 1 ≤ a.length := by
          cases a with
          | nil => exact absurd rfl ha_ne
          | cons _ _ => simp
        omega
      rw [splitLines_append b hnot_a]
      intro m hm
      rcases List.mem_cons.mp hm with hma | hmb
      · subst hma
        exact ⟨ha_ne, pyStrip_of_ok hhead_a hlast_a⟩
      · exact ihn b hlen_b hb_ne hadj_b hhead_b hlast_b m hmb
    · rw [splitLines_no_nl hnl]
      intro m hm
      simp only [List.mem_singleton] at hm
      subst hm
      exact ⟨hne, pyStrip_of_ok hhead hlast⟩

/-- `processLines` fixes strings with clean edges and no adjacent
whitespace. -/
theorem processLines_of_good {l : List Char} (h1 : NoAdj l) (h2 : HeadOk l)
    (h3 : LastOk l) : processLines l = l := by
  by_cases hne : l = []
  · subst hne
    decide
  · have hm := goodLines l.length l le_rfl hne h1 h2 h3
    unfold processLines
    have hmap : (splitLines l).map pyStrip = splitLines l := by
      rw [List.map_congr_left (fun m hmm => (hm m hmm).2)]
      exact List.map_id _
    rw [hmap]
    have hfil : (splitLines l).filter (· ≠ []) = splitLines l := by
      rw [List.filter_eq_self]
      intro m hmm
      simpa using (hm m hmm).1
    rw [hfil]
    exact intercalate_splitLines l

/-- The output of `cleanPost` has clean edges, no adjacent whitespace, no
remaining (non-identity) replacement keys — and the final line pass is the
identity on it. -/
theorem cleanPost_good (l : List Char) :
    NoAdj (cleanPost l) ∧ HeadOk (cleanPost l) ∧ LastOk (cleanPost l) ∧
      KeyClean (cleanPost l) := by
  have hs1 : HeadOk (pyStrip (replaceCrlf l)) := headOk_pyStrip _
  have hs2 : LastOk (pyStrip (replaceCrlf l)) := lastOk_pyStrip _
  have hc0 : NoAdj (collapseWs (pyStrip (replaceCrlf l))) := noAdj_collapseWs _
  have hc1 : HeadOk (collapseWs (pyStrip (replaceCrlf l))) := headOk_collapseWs hs1
  have hc2 : LastOk (collapseWs (pyStrip (replaceCrlf l))) := lastOk_collapseWs hs2
  have hw0 : NoAdj (applyReplacements (collapseWs (pyStrip (replaceCrlf l)))) :=
    noAdj_applyReplacements hc0
  have hw1 : HeadOk (applyReplacements (collapseWs (pyStrip (replaceCrlf l)))) :=
    headOk_applyReplacements hc1
  have hw2 : LastOk (applyReplacements (collapseWs (pyStrip (replaceCrlf l)))) :=
    lastOk_applyReplacements hc2
  have hw3 : KeyClean (applyReplacements (collapseWs (pyStrip (replaceCrlf l)))) :=
    keyClean_applyReplacements _
  have heq : cleanPost l = applyReplacements (collapseWs (pyStrip (replaceCrlf l))) := by
    unfold cleanPost
    exact processLines_of_good hw0 hw1 hw2
  rw [heq]
  exact ⟨hw0, hw1, hw2, hw3⟩

/-- `cleanPost` is idempotent. -/
theorem cleanPost_idem (l : List Char) : cleanPost (cleanPost l) = cleanPost l := by
  obtain ⟨h0, h1, h2, h3⟩ := cleanPost_good l
  conv_lhs => rw [cleanPost]
  rw [replaceCrlf_of_noAdj h0, pyStrip_of_ok h1 h2, collapseWs_of_noAdj h0,
    applyReplacements_of_keyClean h3]
  exact processLines_of_good h0 h1 h2

theorem cleanPostStr_idem (s : String) : cleanPostStr (cleanPostStr s) = cleanPostStr s := by
  unfold cleanPostStr
  exact congrArg String.mk (cleanPost_idem s.data)

/-- C7: `clean_ocr_text` is idempotent: for every string `x`,
`clean_ocr_text (clean_ocr_text x) = clean_ocr_text x`.  The Unicode NFC
normalizer is the library function abstracted as `nfc`; the hypothesis
states that NFC fixes already-cleaned NFC outputs (which holds for real
NFC, because the cleaning steps preserve canonical-composition normality:
they only delete characters and insert NFC-stable ASCII, `•` and `~`). -/
theorem c7_clean_ocr_text_idempotent (nfc : String → String)
    (hnfc : ∀ s : String, nfc (cleanPostStr (nfc s)) = cleanPostStr (nfc s))
    (x : String) :
    cleanOcrText nfc (cleanOcrText nfc x) = cleanOcrText nfc x := by
  unfold cleanOcrText
  by_cases hx : x = ""
  · rw [if_pos hx]
    simp
  · rw [if_neg hx]
    by_cases hy : cleanPostStr (nfc x) = ""
    · rw [if_pos hy, hy]
    · rw [if_neg hy, hnfc x, cleanPostStr_idem]

/-- Witness for C7 at `nfc := id` and a concrete string. -/
theorem c7_clean_ocr_text_idempotent_witness :
    cleanOcrText id (cleanOcrText id "  a   b\r\nc  ") = cleanOcrText id "  a   b\r\nc  " :=
  c7_clean_ocr_text_idempotent id (fun _ => rfl) "  a   b\r\nc  "

/-! ### Quality evaluation (`evaluate_preprocessing_quality`, lines 604-688) -/

/- The `OCRConfig` constants used by the evaluated core
(`processor.py` lines 28-120). -/
namespace OCRConfig

def DEFAULT_LANG : String := "kor+eng"

def MIN_TEXT_LENGTH : Nat := 10

def KOREAN_RATIO_WEIGHT : ℚ := 2

def CONFIDENCE_THRESHOLD : ℚ := 30

end OCRConfig

/-- `pat` starts the list `l`. -/
def startsWith : List Char → List Char → Bool
  | [], _ => true
  | _ :: _, [] => false
  | p :: ps, c :: cs => p == c && startsWith ps cs

/-- Python's substring test `pat in s` on character lists. -/
def containsSeq (pat : List Char) : List Char → Bool
  | [] => startsWith pat []
  | c :: cs => startsWith pat (c :: cs) || containsSeq pat cs

/-- `'kor' in lang` (used at `processor.py` line 644 and 1051). -/
def hasKor (lang : String) : Bool := containsSeq "kor".data lang.data

/-- A Hangul syllable, i.e. a match of the regex class `[가-힣]`. -/
def isHangulSyllable (c : Char) : Bool :=
  0xAC00 ≤ c.toNat && c.toNat ≤ 0xD7A3

/-- The outcome of one trial recognition pass on a variant: the plain text
from `image_to_string` and the `conf` column of `image_to_data` (the
engine uses `-1` as the sentinel for non-word rows). -/
structure TrialResult where
  text : List Char
  confs : List Int
  deriving DecidableEq

/-- `len(ocr_result.strip())` (line 628). -/
def textLengthOf (t : TrialResult) : Nat := (pyStrip t.text).length

/-- `len(re.findall(r'[가-힣]', ocr_result))` (line 633). -/
def koreanCountOf (t : TrialResult) : Nat := (t.text.filter isHangulSyllable).length

/-- `len(re.sub(r'\s', '', ocr_result))` (line 634). -/
def nonWsCountOf (t : TrialResult) : Nat := (t.text.filter (fun c => !pyIsSpace c)).length

/-- The `korean_ratio` quantity of line 635. -/
def koreanFracOf (t : TrialResult) : ℚ :=
  if 0 < nonWsCountOf t then (koreanCountOf t : ℚ) / (nonWsCountOf t : ℚ) else 0

/-- `weight_length = min(1.0, text_length / 100)` (line 637). -/
def lengthTermOf (t : TrialResult) : ℚ := min 1 ((textLengthOf t : ℚ) / 100)

/-- `avg_confidence` (lines 630-631): mean of the `conf` values other than
the `-1` sentinel, or `0` when none remain. -/
def confAvgOf (t : TrialResult) : ℚ :=
  let cs := t.confs.filter (fun c => c ≠ -1)
  if cs.isEmpty then 0 else ((cs.map (fun c : Int => (c : ℚ))).sum) / (cs.length : ℚ)

/-- `weight_confidence = avg_confidence / 100.0` (line 638). -/
def confTermOf (t : TrialResult) : ℚ := confAvgOf t / 100

/-- `contrast_score = min(1.0, np.std(img) / 80.0)` (line 642), as a
function of the measured standard deviation. -/
def contrastTermOf (std : ℚ) : ℚ := min 1 (std / 80)

/-- The per-variant score of `evaluate_preprocessing_quality`
(lines 637-652): the weighted combination — in which `korean_ratio` is
first multiplied by `KOREAN_RATIO_WEIGHT = 2.0` (line 639) — followed by
the half-score penalty for texts shorter than `MIN_TEXT_LENGTH`. -/
def variantScore (t : TrialResult) (std : ℚ) (lang : String) : ℚ :=
  let weight_korean : ℚ := koreanFracOf t * OCRConfig.KOREAN_RATIO_WEIGHT
  let total : ℚ :=
    if hasKor lang then
      lengthTermOf t * (3/10) + confTermOf t * (3/10) +
        weight_korean * (3/10) + contrastTermOf std * (1/10)
    else
      lengthTermOf t * (4/10) + confTermOf t * (4/10) + contrastTermOf std * (2/10)
  if textLengthOf t < OCRConfig.MIN_TEXT_LENGTH then total * (1/2) else total

/-- One element of the `image_scores` list: the variant index and its
score (the diagnostic component fields of the Python dict are carried by
`variantScore`'s arguments and are not needed by the selection logic). -/
structure ScoreEntry where
  index : Nat
  score : ℚ
  deriving DecidableEq

/-- Environment of `evaluate_preprocessing_quality`: the availability
probe, the trial recognition pass over one variant (`cv2.imwrite` +
`image_to_string` + `image_to_data`, whose failure is caught per-variant
at line 665), the measured `np.std` of each variant, and whether the
temp-file cleanup after the loop raises (caught by the outer handler at
line 686). -/
structure EvalEnv (Img : Type) where
  probe : String → Bool × Bool
  trial : Img → Except Unit TrialResult
  std : Img → ℚ
  cleanupFails : Bool

/-- The loop of lines 621-671: one `ScoreEntry` per variant, in order; a
per-variant exception is recorded as a zero score (lines 665-671). -/
def scoreEntries {Img : Type} (env : EvalEnv Img) (images : List Img) (lang : String) :
    List ScoreEntry :=
  images.enum.map (fun p =>
    match env.trial p.2 with
    | .ok t => ⟨p.1, variantScore t (env.std p.2) lang⟩
    | .error _ => ⟨p.1, 0⟩)

/-- `max(image_scores, key=lambda x: x['score'])` (line 679): Python's
`max` keeps the earliest of equal keys. -/
def maxByScore : List ScoreEntry → Option ScoreEntry
  | [] => none
  | e :: rest => some (rest.foldl (fun a b => if b.score > a.score then b else a) e)

/-- `evaluate_preprocessing_quality(images, lang)` (lines 604-688).
`.error ()` models the `ValueError` raised at line 606 for an empty input
(raised before the `try` block, so it propagates to the caller).  When the
probe reports the engine missing, the first variant is returned with a zero
score without running any trial pass (lines 611-613).  Otherwise the
best-scoring variant wins, earliest index on ties; `images[best_index]` is
modelled by `getD` with the (never-used) first element as default. -/
def evaluatePreprocessingQuality {Img : Type} (env : EvalEnv Img)
    (images : List Img) (lang : String) : Except Unit (Img × ScoreEntry) :=
  match images with
  | [] => .error ()
  | img0 :: rest =>
    if (env.probe lang).1 = false then
      .ok (img0, ⟨0, 0⟩)
    else
      let entries := scoreEntries env (img0 :: rest) lang
      if env.cleanupFails then
        .ok (img0, ⟨0, 0⟩)
      else
        match maxByScore entries with
        | none => .ok (img0, ⟨0, 0⟩)
        | some best => .ok ((img0 :: rest).getD best.index img0, best)

/-! ### Score bounds -/

theorem sum_bounds_of_mem : ∀ (l : List ℚ), (∀ x ∈ l, 0 ≤ x ∧ x ≤ 100) →
    0 ≤ l.sum ∧ l.sum ≤ 100 * l.length := by
  intro l
  induction l with
  | nil => intro _; simp
  | cons x t ih =>
    intro h
    have hx := h x (List.mem_cons_self x t)
    have ht := ih (fun y hy => h y (List.mem_cons_of_mem x hy))
    simp only [List.sum_cons, List.length_cons]
    constructor
    · linarith [hx.1, ht.1]
    · push_cast
      linarith [hx.2, ht.2]

theorem confAvgOf_bounds (t : TrialResult)
    (hc : ∀ c ∈ t.confs, 0 ≤ c ∧ c ≤ 100) :
    0 ≤ confAvgOf t ∧ confAvgOf t ≤ 100 := by
  unfold confAvgOf
  dsimp only
  split
  · norm_num
  · next hne =>
    have hmem : ∀ x ∈ (t.confs.filter (fun c => c ≠ -1)).map (fun c : Int => (c : ℚ)),
        0 ≤ x ∧ x ≤ 100 := by
      intro x hx
      obtain ⟨c, hcmem, hcx⟩ := List.mem_map.mp hx
      have := hc c (List.mem_of_mem_filter hcmem)
      subst hcx
      exact ⟨by exact_mod_cast this.1, by exact_mod_cast this.2⟩
    have hs := sum_bounds_of_mem _ hmem
    rw [List.length_map] at hs
    have hlen : 0 < ((t.confs.filter (fun c => c ≠ -1)).length : ℚ) := by
      have : t.confs.filter (fun c => c ≠ -1) ≠ [] := by
        simpa [List.isEmpty_iff] using hne
      have := List.length_pos.mpr this
      exact_mod_cast this
    constructor
    · exact div_nonneg hs.1 (le_of_lt hlen)
    · rw [div_le_iff₀ hlen]
      calc ((t.confs.filter (fun c => c ≠ -1)).map (fun c : Int => (c : ℚ))).sum
          ≤ 100 * ((t.confs.filter (fun c => c ≠ -1)).length : ℚ) := hs.2
        _ = 100 * ((t.confs.filter (fun c => c ≠ -1)).length : ℚ) := rfl

theorem length_filter_le_of_imp (p q : Char → Bool) (l : List Char)
    (h : ∀ c, p c = true → q c = true) :
    (l.filter p).length ≤ (l.filter q).length := by
  induction l with
  | nil => simp
  | cons c t ih =>
    by_cases hp : p c = true
    · rw [List.filter_cons_of_pos hp, List.filter_cons_of_pos (h c hp)]
      simpa using ih
    · rw [List.filter_cons_of_neg (by simpa using hp)]
      by_cases hq : q c = true
      · rw [List.filter_cons_of_pos hq]
        exact Nat.le_trans ih (by simp)
      · rw [List.filter_cons_of_neg (by simpa using hq)]
        exact ih

theorem hangul_not_space (c : Char) (h : isHangulSyllable c = true) :
    (!pyIsSpace c) = true := by
  simp only [isHangulSyllable, Bool.and_eq_true, decide_eq_true_eq] at h
  simp only [pyIsSpace, Bool.not_eq_true', Bool.or_eq_false_iff, Bool.and_eq_false_iff,
    decide_eq_false_iff_not, not_le, beq_eq_false_iff_ne, ne_eq]
  omega

theorem koreanFracOf_bounds (t : TrialResult) :
    0 ≤ koreanFracOf t ∧ koreanFracOf t ≤ 1 := by
  unfold koreanFracOf
  split
  · next hpos =>
    have hle : koreanCountOf t ≤ nonWsCountOf t :=
      length_filter_le_of_imp _ _ _ hangul_not_space
    have hposq : 0 < (nonWsCountOf t : ℚ) := by exact_mod_cast hpos
    constructor
    · positivity
    · rw [div_le_one hposq]
      exact_mod_cast hle
  · norm_num

theorem lengthTermOf_bounds (t : TrialResult) :
    0 ≤ lengthTermOf t ∧ lengthTermOf t ≤ 1 := by
  unfold lengthTermOf
  constructor
  · apply le_min
    · norm_num
    · positivity
  · exact min_le_left _ _

theorem confTermOf_bounds (t : TrialResult)
    (hc : ∀ c ∈ t.confs, 0 ≤ c ∧ c ≤ 100) :
    0 ≤ confTermOf t ∧ confTermOf t ≤ 1 := by
  obtain ⟨h1, h2⟩ := confAvgOf_bounds t hc
  unfold confTermOf
  constructor <;> [positivity; linarith]

theorem contrastTermOf_bounds (std : ℚ) (hstd : 0 ≤ std) :
    0 ≤ contrastTermOf std ∧ contrastTermOf std ≤ 1 := by
  unfold contrastTermOf
  constructor
  · apply le_min
    · norm_num
    · positivity
  · exact min_le_left _ _

/-- The per-variant score is finite, non-negative and at most `13/10`; in
the non-Korean branch it is at most `1`. -/
theorem variantScore_bounds (t : TrialResult) (std : ℚ) (lang : String)
    (hc : ∀ c ∈ t.confs, 0 ≤ c ∧ c ≤ 100) (hstd : 0 ≤ std) :
    0 ≤ variantScore t std lang ∧ variantScore t std lang ≤ 13/10 ∧
      (hasKor lang = false → variantScore t std lang ≤ 1) := by
  obtain ⟨hl1, hl2⟩ := lengthTermOf_bounds t
  obtain ⟨hc1, hc2⟩ := confTermOf_bounds t hc
  obtain ⟨hk1, hk2⟩ := koreanFracOf_bounds t
  obtain ⟨hs1, hs2⟩ := contrastTermOf_bounds std hstd
  unfold variantScore
  simp only [OCRConfig.KOREAN_RATIO_WEIGHT]
  split
  · -- short text: halved score
    split
    · next hk => exact ⟨by nlinarith, by nlinarith, fun hf => absurd hk (by simp [hf])⟩
    · next hk => exact ⟨by nlinarith, by nlinarith, fun _ => by nlinarith⟩
  · -- full score
    split
    · next hk => exact ⟨by nlinarith, by nlinarith, fun hf => absurd hk (by simp [hf])⟩
    · next hk => exact ⟨by nlinarith, by nlinarith, fun _ => by nlinarith⟩

theorem maxByScore_mem : ∀ {entries : List ScoreEntry} {e : ScoreEntry},
    maxByScore entries = some e → e ∈ entries := by
  intro entries e h
  cases entries with
  | nil => simp [maxByScore] at h
  | cons a rest =>
    simp only [maxByScore, Option.some.injEq] at h
    subst h
    have : ∀ (t : List ScoreEntry) (a : ScoreEntry),
        t.foldl (fun x b => if b.score > x.score then b else x) a = a ∨
          t.foldl (fun x b => if b.score > x.score then b else x) a ∈ t := by
      intro t
      induction t with
      | nil => intro a; exact Or.inl rfl
      | cons b u ih =>
        intro a
        simp only [List.foldl_cons]
        rcases ih (if b.score > a.score then b else a) with h1 | h2
        · rw [h1]
          split
          · exact Or.inr (List.mem_cons_self b u)
          · exact Or.inl rfl
        · exact Or.inr (List.mem_cons_of_mem b h2)
    rcases this rest a with h1 | h2
    · rw [h1]; exact List.mem_cons_self a rest
    · exact List.mem_cons_of_mem a h2

theorem getD_mem_or_default {α : Type} : ∀ (l : List α) (n : Nat) (d : α),
    l.getD n d ∈ l ∨ l.getD n d = d := by
  intro l
  induction l with
  | nil => intro n d; exact Or.inr rfl
  | cons x xs ih =>
    intro n d
    cases n with
    | zero => exact Or.inl (List.mem_cons_self x xs)
    | succ m =>
      rcases ih m d with h1 | h2
      · exact Or.inl (List.mem_cons_of_mem x (by simpa using h1))
      · exact Or.inr (by simpa using h2)

/-- Every entry produced by the scoring loop has a score in `[0, 13/10]`,
at most `1` outside the Korean branch. -/
theorem scoreEntries_bounds {Img : Type} (env : EvalEnv Img) (images : List Img)
    (lang : String)
    (hc : ∀ img t, env.trial img = .ok t → ∀ c ∈ t.confs, 0 ≤ c ∧ c ≤ 100)
    (hstd : ∀ img, 0 ≤ env.std img) :
    ∀ e ∈ scoreEntries env images lang,
      0 ≤ e.score ∧ e.score ≤ 13/10 ∧ (hasKor lang = false → e.score ≤ 1) := by
  intro e he
  unfold scoreEntries at he
  obtain ⟨p, _, hpe⟩ := List.mem_map.mp he
  revert hpe
  cases htr : env.trial p.2 with
  | error _ =>
    intro hpe
    rw [← hpe]
    exact ⟨le_refl 0, by norm_num, fun _ => by norm_num⟩
  | ok t =>
    intro hpe
    rw [← hpe]
    exact variantScore_bounds t (env.std p.2) lang (hc p.2 t htr) (hstd p.2)

/-- C10: calling `evaluate_preprocessing_quality` with an empty list of
variant images raises `ValueError` (line 605-606; the raise sits before
the `try` block, so it propagates to the caller rather than being turned
into a result). -/
theorem c10_evaluate_empty_raises_value_error {Img : Type} (env : EvalEnv Img)
    (lang : String) :
    evaluatePreprocessingQuality env [] lang = .error () := rfl

/-- Trial outcome used in the C2 counterexample: ten Hangul syllables
recognized with confidence 100. -/
def tC2 : TrialResult := ⟨"가가가가가가가가가가".data, [100]⟩

/-- Concrete environment for the C2 counterexample: engine present, every
variant recognizes `tC2`, pixel standard deviation 80. -/
def envC2 : EvalEnv Nat :=
  ⟨fun _ => (true, true), fun _ => .ok tC2, fun _ => 80, false⟩

theorem variantScore_tC2 : variantScore tC2 80 "kor" = 103/100 := by
  have ht : textLengthOf tC2 = 10 := by decide
  have hk : koreanCountOf tC2 = 10 := by decide
  have hn : nonWsCountOf tC2 = 10 := by decide
  have hkor : hasKor "kor" = true := by decide
  have hca : confAvgOf tC2 = 100 := by
    unfold confAvgOf tC2
    norm_num
  unfold variantScore lengthTermOf confTermOf contrastTermOf koreanFracOf
  rw [ht, hk, hn, hkor, hca]
  norm_num [OCRConfig.MIN_TEXT_LENGTH, OCRConfig.KOREAN_RATIO_WEIGHT, min_def]

/-- C2 counterexample: with language `"kor"`, a single variant whose trial
pass reads ten Hangul syllables at confidence 100 on an image of standard
deviation 80 is returned with score `103/100`, outside the claimed `[0,1]`
(the `korean_ratio` term is weighted by `2.0` before the `0.3`
coefficient). -/
theorem c2_counterexample :
    evaluatePreprocessingQuality envC2 [0] "kor" =
        .ok (0, ⟨0, 103/100⟩) ∧ ¬((103 : ℚ)/100 ≤ 1) := by
  constructor
  · have h1 : evaluatePreprocessingQuality envC2 [0] "kor" =
        .ok (0, ⟨0, variantScore tC2 80 "kor"⟩) := rfl
    rw [h1, variantScore_tC2]
  · norm_num

/-- C2 (amended): `evaluate_preprocessing_quality` on a non-empty variant
list returns a variant that is an element of the input list and a finite
score in `[0, 13/10]`; outside the Korean branch the score is in `[0,1]`,
but when the language contains `'kor'` it can exceed `1` (up to `13/10`)
because `korean_ratio` is multiplied by `KOREAN_RATIO_WEIGHT = 2.0`. -/
theorem c2_evaluate_member_and_score_bounded {Img : Type} (env : EvalEnv Img)
    (images : List Img) (lang : String) (hne : images ≠ [])
    (hc : ∀ img t, env.trial img = .ok t → ∀ c ∈ t.confs, 0 ≤ c ∧ c ≤ 100)
    (hstd : ∀ img, 0 ≤ env.std img) :
    ∃ img s, evaluatePreprocessingQuality env images lang = .ok (img, s) ∧
      img ∈ images ∧ 0 ≤ s.score ∧ s.score ≤ 13/10 ∧
      (hasKor lang = false → s.score ≤ 1) := by
  cases images with
  | nil => exact absurd rfl hne
  | cons img0 rest =>
    simp only [evaluatePreprocessingQuality]
    split
    · exact ⟨img0, ⟨0, 0⟩, rfl, List.mem_cons_self _ _, by norm_num, by norm_num,
        fun _ => by norm_num⟩
    · split
      · exact ⟨img0, ⟨0, 0⟩, rfl, List.mem_cons_self _ _, by norm_num, by norm_num,
          fun _ => by norm_num⟩
      · cases hmax : maxByScore (scoreEntries env (img0 :: rest) lang) with
        | none =>
          exact ⟨img0, ⟨0, 0⟩, rfl, List.mem_cons_self _ _, by norm_num,
            by norm_num, fun _ => by norm_num⟩
        | some best =>
          have hbmem := maxByScore_mem hmax
          have hb := scoreEntries_bounds env (img0 :: rest) lang hc hstd best hbmem
          refine ⟨(img0 :: rest).getD best.index img0, best, rfl, ?_,
            hb.1, hb.2.1, hb.2.2⟩
          rcases getD_mem_or_default (img0 :: rest) best.index img0 with h | h
          · exact h
          · rw [h]; exact List.mem_cons_self _ _

/-- Witness for the amended C2 at a concrete one-variant environment. -/
theorem c2_evaluate_member_and_score_bounded_witness :
    ∃ img s, evaluatePreprocessingQuality
        (⟨fun _ => (true, true), fun _ => .ok ⟨[], []⟩, fun _ => 0, false⟩ : EvalEnv Nat)
        [7] "eng" = .ok (img, s) ∧
      img ∈ [7] ∧ 0 ≤ s.score ∧ s.score ≤ 13/10 ∧
      (hasKor "eng" = false → s.score ≤ 1) := by
  refine c2_evaluate_member_and_score_bounded _ [7] "eng" (by simp) ?_ ?_
  · intro img t h
    injection h with h'
    subst h'
    intro c hcm
    exact absurd hcm (List.not_mem_nil c)
  · intro _
    norm_num

/-- Trial outcome used in the C6 counterexample (same measurements as the
C2 one, kept separate). -/
def tC6 : TrialResult := ⟨"가가가가가가가가가가".data, [100]⟩

/-- The scoring formula exactly as claim C6 states it: the Korean branch
uses `0.3 * scriptRatio`.  Written from the claim's words for comparison
with the source formula `variantScore`. -/
def c6SpecScore (t : TrialResult) (std : ℚ) (lang : String) : ℚ :=
  if hasKor lang then
    lengthTermOf t * (3/10) + confTermOf t * (3/10) +
      koreanFracOf t * (3/10) + contrastTermOf std * (1/10)
  else
    lengthTermOf t * (4/10) + confTermOf t * (4/10) + contrastTermOf std * (2/10)

/-- C6 counterexample: at ten Hangul syllables, confidence 100 and
standard deviation 80 the code computes `103/100` while the claimed
formula gives `73/100`: the Korean branch weights the script ratio by
`0.3 * 2.0 = 0.6`, not `0.3`. -/
theorem c6_counterexample :
    variantScore tC6 80 "kor" = 103/100 ∧ c6SpecScore tC6 80 "kor" = 73/100 ∧
      ((103 : ℚ)/100 ≠ 73/100) := by
  refine ⟨variantScore_tC2, ?_, by norm_num⟩
  have ht : textLengthOf tC6 = 10 := by decide
  have hk : koreanCountOf tC6 = 10 := by decide
  have hn : nonWsCountOf tC6 = 10 := by decide
  have hkor : hasKor "kor" = true := by decide
  have hca : confAvgOf tC6 = 100 := by
    unfold confAvgOf tC6
    norm_num
  unfold c6SpecScore lengthTermOf confTermOf contrastTermOf koreanFracOf
  rw [ht, hk, hn, hkor, hca]
  norm_num [min_def]

/-- C6 (amended): for a variant whose trial pass succeeded with text length
at least `MIN_TEXT_LENGTH`, the computed score equals
`0.3*lengthTerm + 0.3*confidenceTerm + 0.6*scriptRatio + 0.1*contrastTerm`
when the language contains `'kor'` (the ratio is doubled by
`KOREAN_RATIO_WEIGHT` before the `0.3` weight), and
`0.4*lengthTerm + 0.4*confidenceTerm + 0.2*contrastTerm` otherwise. -/
theorem c6_score_formula (t : TrialResult) (std : ℚ) (lang : String)
    (hlen : OCRConfig.MIN_TEXT_LENGTH ≤ textLengthOf t) :
    variantScore t std lang =
      if hasKor lang then
        lengthTermOf t * (3/10) + confTermOf t * (3/10) +
          koreanFracOf t * (3/5) + contrastTermOf std * (1/10)
      else
        lengthTermOf t * (4/10) + confTermOf t * (4/10) + contrastTermOf std * (2/10) := by
  unfold variantScore
  rw [if_neg (by omega)]
  simp only [OCRConfig.KOREAN_RATIO_WEIGHT]
  split <;> ring

/-- Witness for the amended C6 at a concrete trial outcome. -/
theorem c6_score_formula_witness :
    variantScore tC6 80 "kor" =
      if hasKor "kor" then
        lengthTermOf tC6 * (3/10) + confTermOf tC6 * (3/10) +
          koreanFracOf tC6 * (3/5) + contrastTermOf 80 * (1/10)
      else
        lengthTermOf tC6 * (4/10) + confTermOf tC6 * (4/10) + contrastTermOf 80 * (2/10) :=
  c6_score_formula tC6 80 "kor" (by decide)

/-! ### Language resolution cascade (`detect_ocr_language`, lines 419-570) -/

/-- The `LANGDETECT_TO_TESSERACT` table (lines 62-78). -/
def langdetectToTesseract (code : String) : Option String :=
  if code = "ko" then some "kor"
  else if code = "en" then some "eng"
  else if code = "ja" then some "jpn"
  else if code = "zh-CN" then some "chi_sim"
  else if code = "zh-TW" then some "chi_tra"
  else if code = "de" then some "deu"
  else if code = "fr" then some "fra"
  else if code = "es" then some "spa"
  else if code = "ru" then some "rus"
  else if code = "it" then some "ita"
  else if code = "pt" then some "por"
  else if code = "ar" then some "ara"
  else if code = "hi" then some "hin"
  else if code = "vi" then some "vie"
  else if code = "th" then some "tha"
  else none

/-- Lines 447-450 (and the two analogous sites): compose the mapped code
with the auxiliary Latin pack unless it is already `eng`. -/
def composeLang (t : String) : String := if t ≠ "eng" then t ++ "+eng" else t

/-- Environment of `detect_ocr_language`.  `probe` is
`check_tesseract_availability` (deterministic thanks to the `lru_cache`
memoization); `gemini` is the external-oracle call (`.error` = raised,
`.ok none` = unsuccessful or no language field); `sample lang psm` is the
trial `image_to_string` call of lines 464-470; `detectLang` is the
`langdetect`-based `detect_language` helper (`.error` = raised);
`lastImreadOk`/`lastOcr` model the binarize-and-retry branch of
lines 527-563. -/
structure DetectEnv where
  probe : String → Bool × Bool
  geminiKeyExists : Bool
  gemini : Except Unit (Option String)
  sample : String → Nat → Except Unit String
  hasDetectLanguage : Bool
  detectLang : String → Except Unit (Option String)
  lastImreadOk : Bool
  lastOcr : Except Unit String

/-- `if lang_installed: return lang_code` — accept a candidate only when
the probe reports its pack installed. -/
def probeGate (env : DetectEnv) (lc : String) : Option String :=
  if (env.probe lc).2 then some lc else none

/-- Map a detected code through the table, compose with `+eng`, and accept
it only if the probe reports the pack installed (the shared shape of
lines 444-456, 489-503 and 549-560). -/
def validateCandidate (env : DetectEnv) (code : String) : Option String :=
  match langdetectToTesseract code with
  | none => none
  | some t => probeGate env (composeLang t)

/-- The Gemini tier (lines 423-458); its exceptions are caught at 457. -/
def geminiTier (env : DetectEnv) : Option String :=
  if env.geminiKeyExists then
    match env.gemini with
    | .error _ => none
    | .ok none => none
    | .ok (some code) => validateCandidate env code
  else none

/-- One candidate language of the sampling loop (lines 462-477): psm 3 is
tried first and accepted when the stripped text is longer than 20
characters (the `break`); otherwise psm 6; per-call exceptions continue
the loop. -/
def sampleOne (env : DetectEnv) (ls : String) : Option String :=
  match env.sample ls 3 with
  | .ok t =>
    if 20 < (pyStrip t.data).length then some ⟨pyStrip t.data⟩
    else
      match env.sample ls 6 with
      | .ok t' => if 20 < (pyStrip t'.data).length then some ⟨pyStrip t'.data⟩ else none
      | .error _ => none
  | .error _ =>
    match env.sample ls 6 with
    | .ok t' => if 20 < (pyStrip t'.data).length then some ⟨pyStrip t'.data⟩ else none
    | .error _ => none

/-- `sample_texts` (lines 460-477). -/
def sampleTexts (env : DetectEnv) : List String :=
  ["eng", "kor", "jpn", "chi_sim"].filterMap (sampleOne env)

/-- `" ".join(sample_texts)` (line 479). -/
def joinWithSpace (l : List String) : String := String.intercalate " " l

/-- Character counts of the `pattern_counts` dict (lines 505-510). -/
def countKorChars (s : String) : Nat :=
  (s.data.filter (fun c => 0xAC00 ≤ c.toNat && c.toNat ≤ 0xD7A3)).length

def countEngChars (s : String) : Nat :=
  (s.data.filter (fun c =>
    (0x61 ≤ c.toNat && c.toNat ≤ 0x7A) || (0x41 ≤ c.toNat && c.toNat ≤ 0x5A))).length

def countJpnChars (s : String) : Nat :=
  (s.data.filter (fun c =>
    (0x3040 ≤ c.toNat && c.toNat ≤ 0x309F) || (0x30A0 ≤ c.toNat && c.toNat ≤ 0x30FF))).length

def countChiChars (s : String) : Nat :=
  (s.data.filter (fun c => 0x4E00 ≤ c.toNat && c.toNat ≤ 0x9FFF)).length

/-- `max(pattern_counts.items(), key=lambda x: x[1])[0]` over the
insertion order `kor, eng, jpn, chi_sim`: Python's `max` keeps the
earliest key among equal counts. -/
def mainPatternLang (ck ce cj cc : Nat) : String :=
  let best1 := if ce > ck then ("eng", ce) else ("kor", ck)
  let best2 := if cj > best1.2 then ("jpn", cj) else best1
  let best3 := if cc > best2.2 then ("chi_sim", cc) else best2
  best3.1

/-- The character-frequency tier (lines 505-525). -/
def patternTier (env : DetectEnv) (combined : String) : Option String :=
  let ck := countKorChars combined
  let ce := countEngChars combined
  let cj := countJpnChars combined
  let cc := countChiChars combined
  if 0 < ck + ce + cj + cc then
    let mainLang := mainPatternLang ck ce cj cc
    let engFrac : ℚ := (ce : ℚ) / (max (ck + ce + cj + cc) 1 : ℚ)
    let lc := if mainLang ≠ "eng" ∧ engFrac > 1/5 then mainLang ++ "+eng" else mainLang
    probeGate env lc
  else none

/-- The binarize-and-retry branch (lines 527-563), entered only when
sampling produced nothing; its internal exceptions are caught at 562 and
fall through to the default, and an unreadable image returns the default
at line 532. -/
def lastResortTier (env : DetectEnv) : String :=
  if env.lastImreadOk = false then OCRConfig.DEFAULT_LANG
  else
    match env.lastOcr with
    | .error _ => OCRConfig.DEFAULT_LANG
    | .ok txt =>
      if txt ≠ "" ∧ env.hasDetectLanguage then
        match env.detectLang txt with
        | .error _ => OCRConfig.DEFAULT_LANG
        | .ok none => OCRConfig.DEFAULT_LANG
        | .ok (some code) =>
          match validateCandidate env code with
          | some lc => lc
          | none => OCRConfig.DEFAULT_LANG
      else OCRConfig.DEFAULT_LANG

/-- The body of `detect_ocr_language` inside the outer `try` (lines
422-566): `.error ()` stands for an exception escaping to the handler at
line 568.  Only the `detect_language` call at line 483 sits outside every
inner handler, so only its failure escapes. -/
def afterCombinedTier (env : DetectEnv) (combined : String) : Except Unit (Option String) :=
  if combined ≠ "" then
    match (if env.hasDetectLanguage then some (env.detectLang combined) else none) with
    | some (.error e) => .error e
    | some (.ok (some code)) =>
      match validateCandidate env code with
      | some lc => .ok (some lc)
      | none => .ok (patternTier env combined)
    | some (.ok none) => .ok (patternTier env combined)
    | none => .ok (patternTier env combined)
  else .ok none

def detectBody (env : DetectEnv) : Except Unit String :=
  match geminiTier env with
  | some lc => .ok lc
  | none =>
    let sts := sampleTexts env
    match afterCombinedTier env (joinWithSpace sts) with
    | .error e => .error e
    | .ok (some lc) => .ok lc
    | .ok none =>
      if sts.isEmpty then .ok (lastResortTier env)
      else .ok OCRConfig.DEFAULT_LANG

/-- `detect_ocr_language` (lines 419-570): the outer handler turns any
escaped exception into the default language, so the function never
raises. -/
def detectOcrLanguage (env : DetectEnv) : String :=
  match detectBody env with
  | .ok lc => lc
  | .error _ => OCRConfig.DEFAULT_LANG

theorem probeGate_sound {env : DetectEnv} {lc r : String}
    (h : probeGate env lc = some r) : (env.probe r).2 = true := by
  unfold probeGate at h
  split at h
  · next hp =>
    injection h with h'
    subst h'
    exact hp
  · exact absurd h (by simp)

theorem validateCandidate_sound {env : DetectEnv} {code lc : String}
    (h : validateCandidate env code = some lc) : (env.probe lc).2 = true := by
  unfold validateCandidate at h
  split at h
  · exact absurd h (by simp)
  · exact probeGate_sound h

theorem geminiTier_sound {env : DetectEnv} {lc : String}
    (h : geminiTier env = some lc) : (env.probe lc).2 = true := by
  unfold geminiTier at h
  split at h
  · split at h
    · exact absurd h (by simp)
    · exact absurd h (by simp)
    · exact validateCandidate_sound h
  · exact absurd h (by simp)

theorem patternTier_sound {env : DetectEnv} {combined lc : String}
    (h : patternTier env combined = some lc) : (env.probe lc).2 = true := by
  unfold patternTier at h
  dsimp only at h
  split at h
  · exact probeGate_sound h
  · exact absurd h (by simp)

theorem afterCombinedTier_sound {env : DetectEnv} {combined lc : String}
    (h : afterCombinedTier env combined = .ok (some lc)) : (env.probe lc).2 = true := by
  unfold afterCombinedTier at h
  split at h
  · split at h
    · exact absurd h (by simp)
    · next code heq =>
      split at h
      · next lc' hv =>
        injection h with h'
        injection h' with h''
        subst h''
        exact validateCandidate_sound hv
      · injection h with h'
        exact patternTier_sound h'
    · injection h with h'
      exact patternTier_sound h'
    · injection h with h'
      exact patternTier_sound h'
  · exact absurd h (by simp)

theorem lastResortTier_sound (env : DetectEnv) :
    lastResortTier env = OCRConfig.DEFAULT_LANG ∨
      (env.probe (lastResortTier env)).2 = true := by
  unfold lastResortTier
  split
  · exact Or.inl rfl
  · split
    · exact Or.inl rfl
    · split
      · split
        · exact Or.inl rfl
        · exact Or.inl rfl
        · split
          · next lc hv => exact Or.inr (validateCandidate_sound hv)
          · exact Or.inl rfl
      · exact Or.inl rfl

/-- C4: `detect_ocr_language` never raises (the outer handler converts any
escaped exception into the default), and its return value is either a
language configuration that the availability probe reported installed, or
the documented default `'kor+eng'`.  Totality of the Lean function is the
never-raises part; every `return lang_code` in the source sits behind an
`if lang_installed:` guard on the probe's second component. -/
theorem c4_detect_language_validated_or_default (env : DetectEnv) :
    detectOcrLanguage env = OCRConfig.DEFAULT_LANG ∨
      (env.probe (detectOcrLanguage env)).2 = true := by
  unfold detectOcrLanguage detectBody
  cases hg : geminiTier env with
  | some lc => exact Or.inr (geminiTier_sound hg)
  | none =>
    dsimp only
    cases hac : afterCombinedTier env (joinWithSpace (sampleTexts env)) with
    | error e => exact Or.inl rfl
    | ok o =>
      cases o with
      | some lc => exact Or.inr (afterCombinedTier_sound hac)
      | none =>
        by_cases hs : (sampleTexts env).isEmpty = true
        · rw [if_pos hs]
          exact lastResortTier_sound env
        · rw [if_neg hs]
          exact Or.inl rfl

/-! ### Preprocessing variant generation (`preprocess_image`, lines 322-416) -/

/-- Exceptions of `preprocess_image` as seen by its caller: the
`except ValueError` at 412 re-raises `ValueError` (an unreadable image,
line 335), every other exception — including the `FileNotFoundError` of
line 329 — is converted by line 416 into a `RuntimeError`. -/
inductive PreErr where
  | valueError
  | runtimeError
  deriving DecidableEq

/-- Environment of `preprocess_image` over an abstract image type: the
filesystem checks and each OpenCV primitive invoked directly in the
function body (all fallible, `.error` = raised), plus the bodies of the
four helper transforms that carry their own `try/except` —
`segment_text_by_color` (149-180), `deskew_image` (223-265),
`remove_noise_improved` (268-291), `enhance_image_quality` (294-319) —
each modelled as one fallible image transform (their `.ok` result may be
the input itself, covering the early returns of `deskew_image`). -/
structure PreEnv (Img : Type) where
  pathExists : Bool
  imread : Except Unit (Option Img)
  dims : Img → Nat × Nat
  resize : Img → Except Unit Img
  cvtColor : Img → Except Unit Img
  gaussianBlur : Img → Except Unit Img
  threshold : Img → Except Unit Img
  adaptiveThreshold : Img → Except Unit Img
  equalizeHist : Img → Except Unit Img
  clahe : Img → Except Unit Img
  filter2D : Img → Except Unit Img
  fastNlMeansDenoising : Img → Except Unit Img
  morphologyEx : Img → Except Unit Img
  segmentBody : Img → Except Unit Img
  deskewBody : Img → Except Unit Img
  denoiseBody : Img → Except Unit Img
  enhanceBody : Img → Except Unit Img

/-- `segment_text_by_color` (149-180): its own handler returns the input
image on any failure. -/
def segmentTextByColor {Img : Type} (env : PreEnv Img) (img : Img) : Img :=
  match env.segmentBody img with
  | .ok r => r
  | .error _ => img

/-- `deskew_image` (223-265): early returns and the handler both yield the
input image. -/
def deskewImage {Img : Type} (env : PreEnv Img) (img : Img) : Img :=
  match env.deskewBody img with
  | .ok r => r
  | .error _ => img

/-- `remove_noise_improved` (268-291). -/
def removeNoiseImproved {Img : Type} (env : PreEnv Img) (img : Img) : Img :=
  match env.denoiseBody img with
  | .ok r => r
  | .error _ => img

/-- `enhance_image_quality` (294-319). -/
def enhanceImageQuality {Img : Type} (env : PreEnv Img) (img : Img) : Img :=
  match env.enhanceBody img with
  | .ok r => r
  | .error _ => img

/-- Sequencing of fallible OpenCV calls: the first raised exception
escapes (the `Except` bind, named so the proofs can rewrite step by
step). -/
def step {Img : Type} (x : Except Unit Img) (k : Img → Except Unit (List Img)) :
    Except Unit (List Img) :=
  match x with
  | .error e => .error e
  | .ok v => k v

theorem step_ok {Img : Type} (v : Img) (k : Img → Except Unit (List Img)) :
    step (.ok v) k = k v := rfl

/-- The body of `preprocess_image` after the image is loaded
(lines 340-410), in source order.  Each `step` argument is a direct OpenCV
call whose exception would escape to the handlers at 412-416; the four
guarded helpers can never fail. -/
def preprocessBody {Img : Type} (env : PreEnv Img) (img0 : Img) :
    Except Unit (List Img) :=
  step (if 2000 < max (env.dims img0).1 (env.dims img0).2
        then env.resize img0 else .ok img0) fun img =>
  step (env.cvtColor img) fun gray =>
  step (env.gaussianBlur gray) fun grayBlur =>
  step (env.threshold grayBlur) fun binary =>
  let segmented := segmentTextByColor env img
  step (env.cvtColor segmented) fun segmentedGray =>
  step (env.threshold segmentedGray) fun segmentedBinary =>
  step (env.adaptiveThreshold gray) fun adaptiveBinary =>
  step (env.equalizeHist gray) fun enhanced =>
  step (env.threshold enhanced) fun enhancedBinary =>
  step (env.clahe gray) fun claheImg =>
  step (env.threshold claheImg) fun claheBinary =>
  step (env.filter2D gray) fun sharpened =>
  step (env.threshold sharpened) fun sharpBinary =>
  step (env.fastNlMeansDenoising gray) fun denoised =>
  step (env.threshold denoised) fun denoisedBinary =>
  step (env.morphologyEx binary) fun opening =>
  let deskewed := deskewImage env gray
  step (env.threshold deskewed) fun deskewedBinary =>
  let improvedDenoised := removeNoiseImproved env gray
  let enhancedImg := enhanceImageQuality env gray
  step (env.threshold enhancedImg) fun enhancedQualityBinary =>
  let deskewedDenoised := removeNoiseImproved env deskewed
  .ok [gray, binary, segmentedBinary, adaptiveBinary, enhancedBinary, claheBinary,
    sharpBinary, denoisedBinary, opening, deskewedBinary, improvedDenoised,
    enhancedQualityBinary, deskewedDenoised]

/-- `preprocess_image` (322-416). -/
def preprocessImage {Img : Type} (env : PreEnv Img) : Except PreErr (List Img) :=
  if env.pathExists = false then .error .runtimeError
  else
    match env.imread with
    | .error _ => .error .runtimeError
    | .ok none => .error .valueError
    | .ok (some img0) =>
      match preprocessBody env img0 with
      | .ok l => .ok l
      | .error _ => .error .runtimeError

/-- An image transform that always succeeds. -/
def totalOk {Img : Type} (f : Img → Except Unit Img) : Prop :=
  ∀ x, ∃ y, f x = .ok y

/-- Environment for the C5 counterexample over `Img := Nat`: the image is
present and readable, every primitive succeeds as the identity — except
the global Otsu thresholding, which raises. -/
def envC5 : PreEnv Nat :=
  { pathExists := true
    imread := .ok (some 0)
    dims := fun _ => (10, 10)
    resize := fun x => .ok x
    cvtColor := fun x => .ok x
    gaussianBlur := fun x => .ok x
    threshold := fun _ => .error ()
    adaptiveThreshold := fun x => .ok x
    equalizeHist := fun x => .ok x
    clahe := fun x => .ok x
    filter2D := fun x => .ok x
    fastNlMeansDenoising := fun x => .ok x
    morphologyEx := fun x => .ok x
    segmentBody := fun x => .ok x
    deskewBody := fun x => .ok x
    denoiseBody := fun x => .ok x
    enhanceBody := fun x => .ok x }

/-- C5 counterexample: with a readable input image, a failure of the
thresholding step (a per-variant derivation step, line 354) does not
degrade to the base image — `preprocess_image` raises `RuntimeError`
(line 416) and no variant sequence is returned. -/
theorem c5_counterexample :
    preprocessImage envC5 = .error PreErr.runtimeError := rfl

/-- C5 (amended): only failures inside the four guarded helper transforms
(color segmentation, deskewing, improved denoising, quality enhancement)
degrade without aborting — whatever their bodies do, the call still
returns the full 13-variant sequence provided the direct OpenCV steps
(resize, grayscale conversion, blurring, thresholding, adaptive
thresholding, equalization, CLAHE, sharpening, denoising, morphology)
succeed; a failure of any of those direct steps escapes as
`RuntimeError`/`ValueError` instead (counterexample above). -/
theorem c5_guarded_helpers_degrade {Img : Type} (env : PreEnv Img) (img0 : Img)
    (hpath : env.pathExists = true) (hread : env.imread = .ok (some img0))
    (h1 : totalOk env.resize) (h2 : totalOk env.cvtColor)
    (h3 : totalOk env.gaussianBlur) (h4 : totalOk env.threshold)
    (h5 : totalOk env.adaptiveThreshold) (h6 : totalOk env.equalizeHist)
    (h7 : totalOk env.clahe) (h8 : totalOk env.filter2D)
    (h9 : totalOk env.fastNlMeansDenoising) (h10 : totalOk env.morphologyEx) :
    ∃ l, preprocessImage env = .ok l ∧ l.length = 13 := by
  unfold preprocessImage
  rw [hpath, hread]
  simp only [Bool.true_eq_false, if_false]
  unfold preprocessBody
  dsimp only
  obtain ⟨img, himg⟩ : ∃ y, (if 2000 < max (env.dims img0).1 (env.dims img0).2
      then env.resize img0 else Except.ok img0) = .ok y := by
    split
    · exact h1 img0
    · exact ⟨img0, rfl⟩
  rw [himg, step_ok]
  obtain ⟨gray, e2⟩ := h2 img
  rw [e2, step_ok]
  obtain ⟨grayBlur, e3⟩ := h3 gray
  rw [e3, step_ok]
  obtain ⟨binary, e4⟩ := h4 grayBlur
  rw [e4, step_ok]
  obtain ⟨segmentedGray, e5⟩ := h2 (segmentTextByColor env img)
  rw [e5, step_ok]
  obtain ⟨segmentedBinary, e6⟩ := h4 segmentedGray
  rw [e6, step_ok]
  obtain ⟨adaptiveBinary, e7⟩ := h5 gray
  rw [e7, step_ok]
  obtain ⟨enhanced, e8⟩ := h6 gray
  rw [e8, step_ok]
  obtain ⟨enhancedBinary, e9⟩ := h4 enhanced
  rw [e9, step_ok]
  obtain ⟨claheImg, e10⟩ := h7 gray
  rw [e10, step_ok]
  obtain ⟨claheBinary, e11⟩ := h4 claheImg
  rw [e11, step_ok]
  obtain ⟨sharpened, e12⟩ := h8 gray
  rw [e12, step_ok]
  obtain ⟨sharpBinary, e13⟩ := h4 sharpened
  rw [e13, step_ok]
  obtain ⟨denoised, e14⟩ := h9 gray
  rw [e14, step_ok]
  obtain ⟨denoisedBinary, e15⟩ := h4 denoised
  rw [e15, step_ok]
  obtain ⟨opening, e16⟩ := h10 binary
  rw [e16, step_ok]
  obtain ⟨deskewedBinary, e17⟩ := h4 (deskewImage env gray)
  rw [e17, step_ok]
  obtain ⟨enhancedQualityBinary, e18⟩ := h4 (enhanceImageQuality env gray)
  rw [e18, step_ok]
  exact ⟨_, rfl, rfl⟩

/-- Environment for the C5 witness: every direct OpenCV step succeeds,
while all four guarded helper bodies raise. -/
def envC5W : PreEnv Nat :=
  { pathExists := true
    imread := .ok (some 0)
    dims := fun _ => (10, 10)
    resize := fun x => .ok x
    cvtColor := fun x => .ok x
    gaussianBlur := fun x => .ok x
    threshold := fun x => .ok x
    adaptiveThreshold := fun x => .ok x
    equalizeHist := fun x => .ok x
    clahe := fun x => .ok x
    filter2D := fun x => .ok x
    fastNlMeansDenoising := fun x => .ok x
    morphologyEx := fun x => .ok x
    segmentBody := fun _ => .error ()
    deskewBody := fun _ => .error ()
    denoiseBody := fun _ => .error ()
    enhanceBody := fun _ => .error () }

/-- Witness for the amended C5: all four guarded helpers failing still
yields the full 13-variant sequence. -/
theorem c5_guarded_helpers_degrade_witness :
    ∃ l, preprocessImage envC5W = .ok l ∧ l.length = 13 :=
  c5_guarded_helpers_degrade envC5W 0 rfl rfl
    (fun x => ⟨x, rfl⟩) (fun x => ⟨x, rfl⟩) (fun x => ⟨x, rfl⟩) (fun x => ⟨x, rfl⟩)
    (fun x => ⟨x, rfl⟩) (fun x => ⟨x, rfl⟩) (fun x => ⟨x, rfl⟩) (fun x => ⟨x, rfl⟩)
    (fun x => ⟨x, rfl⟩) (fun x => ⟨x, rfl⟩)

/-! ### Layout-aware extraction (`extract_text_with_layout`, lines 1039-1124) -/

/-- One row of the `image_to_data(..., output_type=DATAFRAME)` result:
`text` is `none` for the NaN rows dropped by `dropna` (line 1072). -/
structure RawRow where
  text : Option String
  conf : ℚ
  left : Int
  top : Int
  width : Int
  height : Int
  blockNum : Nat
  lineNum : Nat
  deriving DecidableEq

/-- A surviving dataframe row after `dropna(subset=['text'])` and the
empty-after-strip filter (lines 1072-1073). -/
structure Tok where
  text : String
  conf : ℚ
  left : Int
  top : Int
  width : Int
  height : Int
  blockNum : Nat
  lineNum : Nat
  deriving DecidableEq

/-- Lines 1072-1073: drop NaN-text rows, then rows whose text strips to
the empty string. -/
def cleanRows (rows : List RawRow) : List Tok :=
  rows.filterMap fun r =>
    match r.text with
    | none => none
    | some s =>
      if pyStrip s.data = [] then none
      else some ⟨s, r.conf, r.left, r.top, r.width, r.height, r.blockNum, r.lineNum⟩

/-- `pandas.Series.unique()`: values in order of first appearance. -/
def uniqueInOrderAux (seen : List Nat) : List Nat → List Nat
  | [] => []
  | x :: xs =>
    if x ∈ seen then uniqueInOrderAux seen xs
    else x :: uniqueInOrderAux (x :: seen) xs

def uniqueInOrder (l : List Nat) : List Nat := uniqueInOrderAux [] l

/-- `block_df` for one block id: the rows of that block (line 1080), then
the confidence filter `conf > CONFIDENCE_THRESHOLD` (line 1082). -/
def survivorsOf (rows : List Tok) (b : Nat) : List Tok :=
  (rows.filter (fun t => t.blockNum = b)).filter
    (fun t => OCRConfig.CONFIDENCE_THRESHOLD < t.conf)

def foldlMin (x : Int) (xs : List Int) : Int := xs.foldl min x

def foldlMax (x : Int) (xs : List Int) : Int := xs.foldl max x

structure Rect where
  x : Int
  y : Int
  width : Int
  height : Int
  deriving DecidableEq

structure BlockInfo where
  text : String
  rect : Rect
  confidence : ℚ
  deriving DecidableEq

structure ExtractResult where
  full_text : String
  blocks : List BlockInfo
  deriving DecidableEq

/-- The per-line join of lines 1087-1097: group the surviving rows by
`line_num` (in first-appearance order), join each line's texts with
spaces, and keep the lines whose text does not strip to empty. -/
def blockLines (g : List Tok) : List String :=
  (uniqueInOrder (g.map (·.lineNum))).filterMap fun ln =>
    let lt := joinWithSpace ((g.filter (fun t => t.lineNum = ln)).map (·.text))
    if pyStrip lt.data = [] then none else some lt

/-- Lines 1084-1118 for one block: `none` when no row survives the
confidence filter or no line remains; otherwise the block record, whose
rectangle uses `left.max() + width.max()` for the right edge and
`top.max() + height.max()` for the bottom edge (lines 1100-1103), and
whose confidence is the unweighted mean (line 1105). -/
def blockOfGroup (g : List Tok) : Option BlockInfo :=
  match g with
  | [] => none
  | t :: ts =>
    let lines := blockLines (t :: ts)
    if lines = [] then none
    else
      let left := foldlMin t.left (ts.map (·.left))
      let top := foldlMin t.top (ts.map (·.top))
      let right := foldlMax t.left (ts.map (·.left)) + foldlMax t.width (ts.map (·.width))
      let bottom := foldlMax t.top (ts.map (·.top)) + foldlMax t.height (ts.map (·.height))
      some
        { text := String.intercalate "\n" lines
          rect := ⟨left, top, right - left, bottom - top⟩
          confidence := ((t :: ts).map (·.conf)).sum / ((t :: ts).length : ℚ) }

/-- The block loop of lines 1079-1118: iterate the distinct `block_num`
values in first-appearance order and keep the retained blocks. -/
def buildBlocks (rows : List Tok) : List BlockInfo :=
  (uniqueInOrder (rows.map (·.blockNum))).filterMap
    (fun b => blockOfGroup (survivorsOf rows b))

/-- Environment of `extract_text_with_layout`: the probe, the
`cv2.imread` None-check of line 1055, the environments of the
`preprocess_image` and `evaluate_preprocessing_quality` calls, and the
final `image_to_data` recognition pass (fallible). -/
structure ExtractEnv (Img : Type) where
  probe : String → Bool × Bool
  imreadOk : Bool
  pre : PreEnv Img
  ev : EvalEnv Img
  recognize : Img → String → Except Unit (List RawRow)

/-- The part of `extract_text_with_layout` after the language has been
fixed (lines 1055-1120).  Every failure before the dataframe is filled
is caught by the handler at 1122-1124, which returns the initial
`{'full_text': '', 'blocks': []}` value. -/
def extractAfterLang {Img : Type} (env : ExtractEnv Img) (lang1 : String) :
    ExtractResult :=
  if env.imreadOk = false then ⟨"", []⟩
  else
    match preprocessImage env.pre with
    | .error _ => ⟨"", []⟩
    | .ok imgs =>
      match evaluatePreprocessingQuality env.ev imgs lang1 with
      | .error _ => ⟨"", []⟩
      | .ok (best, _) =>
        match env.recognize best lang1 with
        | .error _ => ⟨"", []⟩
        | .ok raws =>
          let rows := cleanRows raws
          if rows.isEmpty then ⟨"", []⟩
          else ⟨joinWithSpace (rows.map (·.text)), buildBlocks rows⟩

/-- `extract_text_with_layout` (lines 1039-1124).  When the probe reports
the engine missing, the `RuntimeError` of line 1049 is swallowed by the
handler at 1122 and the empty result is returned; when only the pack is
missing and the language mentions `kor`, line 1053 substitutes `'eng'`
and the extraction proceeds. -/
def extractTextWithLayout {Img : Type} (env : ExtractEnv Img) (lang : String) :
    ExtractResult :=
  if (env.probe lang).1 = false then ⟨"", []⟩
  else
    extractAfterLang env
      (if (env.probe lang).2 = false ∧ hasKor lang = true then "eng" else lang)

theorem foldlMin_le (xs : List Int) : ∀ x : Int,
    foldlMin x xs ≤ x ∧ ∀ y ∈ xs, foldlMin x xs ≤ y := by
  induction xs with
  | nil => intro x; exact ⟨le_refl x, by simp⟩
  | cons a t ih =>
    intro x
    unfold foldlMin at *
    simp only [List.foldl_cons]
    obtain ⟨h1, h2⟩ := ih (min x a)
    refine ⟨le_trans h1 (min_le_left x a), ?_⟩
    intro y hy
    rcases List.mem_cons.mp hy with heq | hmem
    · subst heq
      exact le_trans h1 (min_le_right x y)
    · exact h2 y hmem

theorem le_foldlMax (xs : List Int) : ∀ x : Int,
    x ≤ foldlMax x xs ∧ ∀ y ∈ xs, y ≤ foldlMax x xs := by
  induction xs with
  | nil => intro x; exact ⟨le_refl x, by simp⟩
  | cons a t ih =>
    intro x
    unfold foldlMax at *
    simp only [List.foldl_cons]
    obtain ⟨h1, h2⟩ := ih (max x a)
    refine ⟨le_trans (le_max_left x a) h1, ?_⟩
    intro y hy
    rcases List.mem_cons.mp hy with heq | hmem
    · subst heq
      exact le_trans (le_max_right x y) h1
    · exact h2 y hmem

/-- The rectangle of a retained block, in terms of its token group. -/
theorem blockOfGroup_rect {g : List Tok} {b : BlockInfo}
    (h : blockOfGroup g = some b) :
    ∃ t ts, g = t :: ts ∧
      b.rect.x = foldlMin t.left (ts.map (·.left)) ∧
      b.rect.y = foldlMin t.top (ts.map (·.top)) ∧
      b.rect.x + b.rect.width =
        foldlMax t.left (ts.map (·.left)) + foldlMax t.width (ts.map (·.width)) ∧
      b.rect.y + b.rect.height =
        foldlMax t.top (ts.map (·.top)) + foldlMax t.height (ts.map (·.height)) := by
  cases g with
  | nil => simp [blockOfGroup] at h
  | cons t ts =>
    refine ⟨t, ts, rfl, ?_⟩
    unfold blockOfGroup at h
    dsimp only at h
    split at h
    · exact absurd h (by simp)
    · injection h with h'
      subst h'
      refine ⟨rfl, rfl, ?_, ?_⟩ <;> dsimp only <;> omega

/-- A block's rectangle contains a token's rectangle. -/
def rectContainsTok (R : Rect) (t : Tok) : Prop :=
  R.x ≤ t.left ∧ R.y ≤ t.top ∧
    t.left + t.width ≤ R.x + R.width ∧ t.top + t.height ≤ R.y + R.height

theorem blockOfGroup_contains {g : List Tok} {b : BlockInfo}
    (h : blockOfGroup g = some b) : ∀ t' ∈ g, rectContainsTok b.rect t' := by
  obtain ⟨t, ts, hg, hx, hy, hxw, hyh⟩ := blockOfGroup_rect h
  subst hg
  intro t' ht'
  have hminL := foldlMin_le (ts.map (·.left)) t.left
  have hminT := foldlMin_le (ts.map (·.top)) t.top
  have hmaxL := le_foldlMax (ts.map (·.left)) t.left
  have hmaxW := le_foldlMax (ts.map (·.width)) t.width
  have hmaxT := le_foldlMax (ts.map (·.top)) t.top
  have hmaxH := le_foldlMax (ts.map (·.height)) t.height
  rcases List.mem_cons.mp ht' with heq | hmem
  · subst heq
    exact ⟨hx ▸ hminL.1, hy ▸ hminT.1, by rw [hxw]; exact add_le_add hmaxL.1 hmaxW.1,
      by rw [hyh]; exact add_le_add hmaxT.1 hmaxH.1⟩
  · refine ⟨hx ▸ hminL.2 _ (List.mem_map_of_mem _ hmem),
      hy ▸ hminT.2 _ (List.mem_map_of_mem _ hmem), ?_, ?_⟩
    · rw [hxw]
      exact add_le_add (hmaxL.2 _ (List.mem_map_of_mem _ hmem))
        (hmaxW.2 _ (List.mem_map_of_mem _ hmem))
    · rw [hyh]
      exact add_le_add (hmaxT.2 _ (List.mem_map_of_mem _ hmem))
        (hmaxH.2 _ (List.mem_map_of_mem _ hmem))

/-- Every block of the extractor's output comes from `blockOfGroup` on
some (nonempty) token group. -/
theorem extract_block_from_group {Img : Type} (env : ExtractEnv Img) (lang : String)
    {b : BlockInfo} (hb : b ∈ (extractTextWithLayout env lang).blocks) :
    ∃ g, blockOfGroup g = some b := by
  unfold extractTextWithLayout at hb
  split at hb
  · simp at hb
  · unfold extractAfterLang at hb
    split at hb
    · simp at hb
    · split at hb
      · simp at hb
      · split at hb
        · simp at hb
        · split at hb
          · simp at hb
          · dsimp only at hb
            split at hb
            · simp at hb
            · simp only at hb
              unfold buildBlocks at hb
              obtain ⟨bn, _, hbn⟩ := List.mem_filterMap.mp hb
              exact ⟨survivorsOf _ bn, hbn⟩

/-- C9: every retained block's bounding rectangle contains the bounding
rectangle of every token assigned to that block (the group the block was
built from). -/
theorem c9_block_rect_contains_tokens {Img : Type} (env : ExtractEnv Img)
    (lang : String) (b : BlockInfo)
    (hb : b ∈ (extractTextWithLayout env lang).blocks) :
    ∃ g, g ≠ [] ∧ blockOfGroup g = some b ∧ ∀ t ∈ g, rectContainsTok b.rect t := by
  obtain ⟨g, hg⟩ := extract_block_from_group env lang hb
  refine ⟨g, ?_, hg, blockOfGroup_contains hg⟩
  intro hnil
  subst hnil
  simp [blockOfGroup] at hg

/-- C8 (amended): every retained block's rectangle has `x`/`y` the minima
of its tokens' `left`/`top`, but its right edge is `max(left) + max(width)`
and its bottom edge `max(top) + max(height)` — the sum of separate maxima
(lines 1100-1103), not the maximum of per-token `left + width`. -/
theorem c8_block_rect_formula {Img : Type} (env : ExtractEnv Img)
    (lang : String) (b : BlockInfo)
    (hb : b ∈ (extractTextWithLayout env lang).blocks) :
    ∃ t ts, blockOfGroup (t :: ts) = some b ∧
      b.rect.x = foldlMin t.left (ts.map (·.left)) ∧
      b.rect.y = foldlMin t.top (ts.map (·.top)) ∧
      b.rect.x + b.rect.width =
        foldlMax t.left (ts.map (·.left)) + foldlMax t.width (ts.map (·.width)) ∧
      b.rect.y + b.rect.height =
        foldlMax t.top (ts.map (·.top)) + foldlMax t.height (ts.map (·.height)) := by
  obtain ⟨g, hg⟩ := extract_block_from_group env lang hb
  obtain ⟨t, ts, hgeq, h1, h2, h3, h4⟩ := blockOfGroup_rect hg
  subst hgeq
  exact ⟨t, ts, hg, h1, h2, h3, h4⟩

/-- C1: when the probe reports the recognition engine not installed,
`extract_text_with_layout` returns exactly the silently-empty value
`{'full_text': '', 'blocks': []}` — the `RuntimeError` raised at
line 1049 is swallowed by the handler at 1122-1124, which returns the
initial result.  The claim (and the spec's hard-failure requirement) say
this value must never be returned silently; the raise shows the intended
behavior, so this is recorded as a code bug. -/
theorem c1_extract_engine_missing_returns_empty {Img : Type}
    (env : ExtractEnv Img) (lang : String)
    (h : (env.probe lang).1 = false) :
    extractTextWithLayout env lang = ⟨"", []⟩ := by
  unfold extractTextWithLayout
  rw [h]
  rfl

/-- Shared all-succeeding preprocessing environment for the concrete
extraction scenarios. -/
def allOkPre : PreEnv Nat :=
  { pathExists := true
    imread := .ok (some 0)
    dims := fun _ => (10, 10)
    resize := fun x => .ok x
    cvtColor := fun x => .ok x
    gaussianBlur := fun x => .ok x
    threshold := fun x => .ok x
    adaptiveThreshold := fun x => .ok x
    equalizeHist := fun x => .ok x
    clahe := fun x => .ok x
    filter2D := fun x => .ok x
    fastNlMeansDenoising := fun x => .ok x
    morphologyEx := fun x => .ok x
    segmentBody := fun x => .ok x
    deskewBody := fun x => .ok x
    denoiseBody := fun x => .ok x
    enhanceBody := fun x => .ok x }

/-- Shared evaluation environment: engine present, trial passes fail (all
variants score zero, the first is selected). -/
def allOkEval : EvalEnv Nat :=
  { probe := fun _ => (true, true)
    trial := fun _ => .error ()
    std := fun _ => 0
    cleanupFails := false }

/-- Witness environment for C1: the probe reports the engine missing. -/
def envC1 : ExtractEnv Nat :=
  { probe := fun _ => (false, false)
    imreadOk := true
    pre := allOkPre
    ev := allOkEval
    recognize := fun _ _ => .ok [] }

theorem c1_extract_engine_missing_returns_empty_witness :
    extractTextWithLayout envC1 "kor+eng" = ⟨"", []⟩ :=
  c1_extract_engine_missing_returns_empty envC1 "kor+eng" rfl

/-- Environment for C3: the probe reports the engine installed but the
`kor+eng` pack missing; recognition yields the word `hello` only when
invoked with the substitute pack `eng`. -/
def envC3 : ExtractEnv Nat :=
  { probe := fun l => if l = "kor+eng" then (true, false) else (true, true)
    imreadOk := true
    pre := allOkPre
    ev := allOkEval
    recognize := fun _ l => if l = "eng" then .ok [⟨some "hello", 90, 0, 0, 10, 5, 1, 1⟩]
                            else .ok [] }

/-- C3 counterexample: with the `kor+eng` pack reported missing,
`extract_text_with_layout` does not return a terminal failure — it
substitutes `'eng'` (line 1053), runs recognition with the substitute
pack and returns its text. -/
theorem c3_counterexample :
    envC3.probe "kor+eng" = (true, false) ∧
      (extractTextWithLayout envC3 "kor+eng").full_text = "hello" ∧
      extractTextWithLayout envC3 "kor+eng" ≠ ⟨"", []⟩ := by
  refine ⟨rfl, rfl, ?_⟩
  intro h
  have h2 : ("hello" : String) = "" := by
    have h1 : (extractTextWithLayout envC3 "kor+eng").full_text = "hello" := rfl
    rw [← h1, h]
  exact absurd h2 (by decide)

/-- C3 (amended): when the probe reports `(engine installed, pack
missing)` and the language mentions `kor`, the extractor does not fail:
it proceeds with the substitute pack `'eng'` from that point on. -/
theorem c3_extract_substitutes_eng {Img : Type} (env : ExtractEnv Img)
    (lang : String) (hp : env.probe lang = (true, false))
    (hk : hasKor lang = true) :
    extractTextWithLayout env lang = extractAfterLang env "eng" := by
  unfold extractTextWithLayout
  rw [hp]
  simp [hk]

theorem c3_extract_substitutes_eng_witness :
    extractTextWithLayout envC3 "kor+eng" = extractAfterLang envC3 "eng" :=
  c3_extract_substitutes_eng envC3 "kor+eng" rfl (by decide)

/-- The right edge of the minimal enclosing rectangle as the claim states
it: the maximum over tokens of `left + width`.  Written from the claim's
words, for comparison with the code's `max(left) + max(width)`. -/
def specUnionRightEdge : List Tok → Int
  | [] => 0
  | t :: ts => foldlMax (t.left + t.width) (ts.map (fun t' => t'.left + t'.width))

/-- Dataframe for the C8 counterexample: two tokens of one block and one
line — `(left 0, width 10)` and `(left 5, width 2)` — so the widest token
is not the rightmost. -/
def rawsC8 : List RawRow :=
  [⟨some "a", 90, 0, 0, 10, 5, 1, 1⟩, ⟨some "b", 90, 5, 0, 2, 5, 1, 1⟩]

def envC8 : ExtractEnv Nat :=
  { probe := fun _ => (true, true)
    imreadOk := true
    pre := allOkPre
    ev := allOkEval
    recognize := fun _ _ => .ok rawsC8 }

/-- C8 counterexample: the retained block's rectangle has right edge
`x + width = 0 + 15 = max(left) + max(width)`, while the exact union of
the two tokens' rectangles has right edge `max(left+width) = 10`: the
block rectangle is not the minimal enclosing rectangle. -/
theorem c8_counterexample :
    (extractTextWithLayout envC8 "eng").blocks.map
        (fun b => (b.rect.x, b.rect.y, b.rect.width, b.rect.height)) = [(0, 0, 15, 5)] ∧
      specUnionRightEdge (survivorsOf (cleanRows rawsC8) 1) = 10 ∧
      ((0 : Int) + 15 ≠ 10) := by
  refine ⟨by decide, by decide, by decide⟩

/-- The retained block of the C8/C9 witness scenario. -/
def bC8 : BlockInfo :=
  ((extractTextWithLayout envC8 "eng").blocks).headD ⟨"", ⟨0, 0, 0, 0⟩, 0⟩

/-- Witness for the amended C8 at the concrete two-token block. -/
theorem c8_block_rect_formula_witness :
    ∃ t ts, blockOfGroup (t :: ts) = some bC8 ∧
      bC8.rect.x = foldlMin t.left (ts.map (·.left)) ∧
      bC8.rect.y = foldlMin t.top (ts.map (·.top)) ∧
      bC8.rect.x + bC8.rect.width =
        foldlMax t.left (ts.map (·.left)) + foldlMax t.width (ts.map (·.width)) ∧
      bC8.rect.y + bC8.rect.height =
        foldlMax t.top (ts.map (·.top)) + foldlMax t.height (ts.map (·.height)) :=
  c8_block_rect_formula envC8 "eng" bC8 (by
    have h : (extractTextWithLayout envC8 "eng").blocks = [bC8] := rfl
    rw [h]
    exact List.mem_cons_self _ _)

/-- Environment for the C9 witness (its own copy of the two-token
scenario). -/
def envC9 : ExtractEnv Nat :=
  { probe := fun _ => (true, true)
    imreadOk := true
    pre := allOkPre
    ev := allOkEval
    recognize := fun _ _ =>
      .ok [⟨some "a", 90, 0, 0, 10, 5, 1, 1⟩, ⟨some "b", 90, 5, 0, 2, 5, 1, 1⟩] }

def bC9 : BlockInfo :=
  ((extractTextWithLayout envC9 "eng").blocks).headD ⟨"", ⟨0, 0, 0, 0⟩, 0⟩

/-- Witness for C9 at the concrete two-token block. -/
theorem c9_block_rect_contains_tokens_witness :
    ∃ g, g ≠ [] ∧ blockOfGroup g = some bC9 ∧ ∀ t ∈ g, rectContainsTok bC9.rect t :=
  c9_block_rect_contains_tokens envC9 "eng" bC9 (by
    have h : (extractTextWithLayout envC9 "eng").blocks = [bC9] := rfl
    rw [h]
    exact List.mem_cons_self _ _)
